import Mathlib

/-!
Verification of the `DoubleKeyTable` storage engine from `double_key_table.py`:
a two-level open-addressing hash table keyed by pairs of strings.  The outer
table maps a first key to a per-key inner `LinearProbeTable`; the inner table
maps the second key to the stored value.

The Python class `DoubleKeyTable` is embedded function by function.  The inner
table class `LinearProbeTable` (module `data_structures.hash_table`) is not part
of the provided sources, so its operations are modelled from the specification
(each such definition carries a `Modelled from the spec:` doc comment).  Python
exceptions are modelled with an `Err` sum type; mutating methods return the
possibly-mutated state next to the outcome, so that an operation that raises
after mutating is distinguishable from one that raises atomically.  The mutual
recursion between `__setitem__` and `_rehash` (a resize re-inserts through
`__setitem__`, which can itself trigger a resize) is bounded by explicit fuel;
each `_rehash` call strictly increases `size_index` and returns at once beyond
the ladder, so the supplied fuel (twice the ladder length plus a margin) is
never exhausted on runs the Python code can perform.
-/

namespace DKTable

/-- Python exceptions relevant to the table code. -/
inductive Err where
  | keyError : Err
  | fullError : Err
  | typeError : Err
  deriving DecidableEq, Repr

deriving instance DecidableEq for Except

/-- The polynomial string hash shared by `hash1` and `hash2`:
`value = (ord c + a * value) % tableSize`, `a = a * 31 % (tableSize - 1)`,
starting from `value = 0`, `a = 31415` (`HASH_BASE = 31`). -/
def hashString (tableSize : Nat) (key : String) : Nat :=
  (key.data.foldl
    (fun (p : Nat × Nat) c =>
      ((c.toNat + p.2 * p.1) % tableSize, p.2 * 31 % (tableSize - 1)))
    ((0 : Nat), (31415 : Nat))).1

/-- Inner hash-table state (`LinearProbeTable`).  `sizes` is its size ladder
(`TABLE_SIZES`), `size_index` the current rung, `array` the backing array of
optional (key, value) slots, `count` the number of stored entries. -/
structure LPT (V : Type) where
  sizes : List Nat
  size_index : Nat
  array : List (Option (String × V))
  count : Nat
  deriving Repr, DecidableEq

namespace LPT

variable {V : Type}

/-- `table_size` property: length of the backing array. -/
def table_size (t : LPT V) : Nat := t.array.length

/-- Modelled from the spec: construction of a `LinearProbeTable` (the class is
not under the provided sources).  A fresh table sits at the first ladder rung
with an empty backing array and zero count. -/
def make (sizes : List Nat) : LPT V :=
  ⟨sizes, 0, List.replicate (sizes.getD 0 0) none, 0⟩

/-- `is_empty`: the table stores no entries. -/
def is_empty (t : LPT V) : Bool := t.count = 0

/-- Modelled from the spec: the inner table's `_linear_probe` loop body —
"the inner probe follows the identical shape over its own array and size" as
the outer probe: scan up to `table_size` slots from the start position; an
empty slot resolves (insert) or fails NotFound (lookup); a slot holding the
key resolves; otherwise step by +1 mod size; exhausting all slots fails Full
(insert) or NotFound (lookup). -/
def probeAux (t : LPT V) (key : String) (is_insert : Bool) :
    Nat → Nat → Except Err Nat
  | 0, _ => if is_insert then .error .fullError else .error .keyError
  | n + 1, pos =>
    match t.array.getD pos none with
    | none => if is_insert then .ok pos else .error .keyError
    | some kv =>
      if kv.1 = key then .ok pos
      else t.probeAux key is_insert n ((pos + 1) % t.table_size)

/-- Modelled from the spec: `LinearProbeTable._linear_probe`, with the hash
function the double-key table installs on every inner table: the polynomial
hash bound to the inner table's own current capacity. -/
def linear_probe (t : LPT V) (key : String) (is_insert : Bool) : Except Err Nat :=
  t.probeAux key is_insert t.table_size (hashString t.table_size key)

/-- Modelled from the spec: `LinearProbeTable.__getitem__` — locate the key
with a lookup probe and return the stored value. -/
def getitem (t : LPT V) (key : String) : Except Err V :=
  match t.linear_probe key false with
  | .error e => .error e
  | .ok pos =>
    match t.array.getD pos none with
    | some kv => .ok kv.2
    | none => .error .keyError

/-- Modelled from the spec: `LinearProbeTable.keys` — the stored keys in
backing-array order. -/
def keys (t : LPT V) : List String := (t.array.filterMap id).map Prod.fst

/-- Modelled from the spec: `LinearProbeTable.values` — the stored values in
backing-array order. -/
def values (t : LPT V) : List V := (t.array.filterMap id).map Prod.snd

/-- Input selector for the fuelled mutual recursion between the inner table's
`__setitem__` and `_rehash`. -/
inductive OpIn (V : Type) where
  | set (t : LPT V) (key : String) (v : V)
  | rehash (t : LPT V)

/-- Modelled from the spec: the inner table's `__setitem__` and `_rehash` as
one fuel-indexed function (`__setitem__` probes for insertion, writes the entry
— counting it when the slot was empty — then grows the table when
`count > table_size / 2`; `_rehash` advances the ladder rung, returning
unchanged beyond the last rung, and re-inserts every entry through
`__setitem__`).  Fuel decreases on every cross-call; with fuel 0 a pending grow
is skipped, which no run started with adequate fuel reaches. -/
def opF : Nat → OpIn V → Except Err Unit × LPT V
  | 0, .set t _ _ => (.ok (), t)
  | 0, .rehash t => (.ok (), t)
  | n + 1, .set t key v =>
    match t.linear_probe key true with
    | .error e => (.error e, t)
    | .ok pos =>
      let isNew := (t.array.getD pos none).isNone
      let t1 : LPT V :=
        { t with array := t.array.set pos (some (key, v)),
                 count := t.count + (if isNew then 1 else 0) }
      if 2 * t1.count > t1.table_size then opF n (.rehash t1)
      else (.ok (), t1)
  | n + 1, .rehash t =>
    let t' : LPT V := { t with size_index := t.size_index + 1 }
    if t.sizes.length ≤ t'.size_index then (.ok (), t)
    else
      let t0 : LPT V :=
        { t' with array := List.replicate (t.sizes.getD t'.size_index 0) none,
                  count := 0 }
      (t.array.filterMap id).foldl
        (fun acc kv =>
          match acc.1 with
          | .error _ => acc
          | .ok () => opF n (.set acc.2 kv.1 kv.2))
        ((.ok (), t0) : Except Err Unit × LPT V)

/-- The re-insertion step that `_rehash` folds over the stored entries (the
literal loop body inside `opF`). -/
def reinsertStep (n : Nat) (acc : Except Err Unit × LPT V) (kv : String × V) :
    Except Err Unit × LPT V :=
  match acc.1 with
  | .error _ => acc
  | .ok () => opF n (.set acc.2 kv.1 kv.2)

/-- The empty table at the next ladder rung that `_rehash` rebuilds into
(the literal intermediate state inside `opF`). -/
def rebuildBase (t : LPT V) : LPT V :=
  { t with size_index := t.size_index + 1,
           array := List.replicate (t.sizes.getD (t.size_index + 1) 0) none,
           count := 0 }

/-- Modelled from the spec: `LinearProbeTable.__setitem__` at a fuel budget
that the rung-per-rehash bound keeps from exhausting. -/
def setitem (t : LPT V) (key : String) (v : V) : Except Err Unit × LPT V :=
  opF (2 * t.sizes.length + 8) (.set t key v)

/-- Modelled from the spec: `LinearProbeTable._rehash` at a fuel budget that
the rung-per-rehash bound keeps from exhausting. -/
def rehash (t : LPT V) : Except Err Unit × LPT V :=
  opF (2 * t.sizes.length + 8) (.rehash t)

end LPT

/-- The built-in size ladder of `DoubleKeyTable.TABLE_SIZES`. -/
def DEFAULT_SIZES : List Nat :=
  [5, 13, 29, 53, 97, 193, 389, 769, 1543, 3079, 6151, 12289, 24593, 49157,
   98317, 196613, 393241, 786433, 1572869]

/-- `DoubleKeyTable` state: the outer size ladder (`TABLE_SIZES`), the ladder
handed to fresh inner tables (`internal_sizes`), the current outer rung
(`size_index`), the outer backing array of optional (key1, inner table) slots,
and `element_count` (the number of occupied outer slots). -/
structure DKT (V : Type) where
  sizes : List Nat
  internal_sizes : List Nat
  size_index : Nat
  table : List (Option (String × LPT V))
  element_count : Nat
  deriving Repr, DecidableEq

namespace DKT

variable {V : Type}

/-- `table_size` property: length of the outer backing array. -/
def table_size (s : DKT V) : Nat := s.table.length

/-- `__init__`: optional outer and inner ladders, defaulting to
`TABLE_SIZES`; the outer array is allocated at the first rung. -/
def init (sizes : Option (List Nat)) (internal_sizes : Option (List Nat)) :
    DKT V :=
  let szs := sizes.getD DEFAULT_SIZES
  { sizes := szs,
    internal_sizes := internal_sizes.getD szs,
    size_index := 0,
    table := List.replicate (szs.getD 0 0) none,
    element_count := 0 }

/-- `hash1`: the polynomial hash at the outer table's current capacity. -/
def hash1 (s : DKT V) (key : String) : Nat := hashString s.table_size key

/-- `hash2`: the polynomial hash at the given inner table's current
capacity. -/
def hash2 (_s : DKT V) (sub_table : LPT V) (key : String) : Nat :=
  hashString sub_table.table_size key

/-- The loop body of `DoubleKeyTable._linear_probe`: scan up to `table_size`
outer slots from `hash1 key1`.  An empty slot under insertion allocates a fresh
inner table from `internal_sizes`, stores `(key1, table)` there and resolves at
the raw `hash2` of `key2` (no inner probing, the table is empty); under lookup
it raises KeyError.  A slot holding `key1` delegates to the inner probe.  Any
other slot steps by +1 mod size.  Exhaustion raises FullError (insert) or
KeyError (lookup).  The possibly-extended state is returned with the
positions. -/
def probeAux (s : DKT V) (k1 k2 : String) (is_insert : Bool) :
    Nat → Nat → Except Err (Nat × Nat) × DKT V
  | 0, _ => (if is_insert then .error .fullError else .error .keyError, s)
  | n + 1, pos =>
    match s.table.getD pos none with
    | none =>
      if is_insert then
        let st : LPT V := LPT.make s.internal_sizes
        (.ok (pos, hashString st.table_size k2),
          { s with table := s.table.set pos (some (k1, st)) })
      else (.error .keyError, s)
    | some (k, st) =>
      if k = k1 then
        match st.linear_probe k2 is_insert with
        | .error e => (.error e, s)
        | .ok spos => (.ok (pos, spos), s)
      else s.probeAux k1 k2 is_insert n ((pos + 1) % s.table_size)

/-- `DoubleKeyTable._linear_probe`. -/
def linear_probe (s : DKT V) (k1 k2 : String) (is_insert : Bool) :
    Except Err (Nat × Nat) × DKT V :=
  s.probeAux k1 k2 is_insert s.table_size (s.hash1 k1)

/-- `__getitem__`: a lookup probe, then the inner table's own `__getitem__`. -/
def getitem (s : DKT V) (k1 k2 : String) : Except Err V :=
  match (s.linear_probe k1 k2 false).1 with
  | .error e => .error e
  | .ok (tpos, _) =>
    match s.table.getD tpos none with
    | some (_, st) => st.getitem k2
    | none => .error .typeError

/-- `__contains__`: `__getitem__` with `KeyError` caught. -/
def contains (s : DKT V) (k1 k2 : String) : Bool :=
  match s.getitem k1 k2 with
  | .ok _ => true
  | .error _ => false

/-- Check at the end of `__setitem__`: the local `sub_table` variable still
aliases the inner table at `tpos`, so when `len(sub_table) > table_size / 2`
its `_rehash` mutates the table in place at that slot. -/
def innerCheck (s : DKT V) (tpos : Nat) : DKT V :=
  match s.table.getD tpos none with
  | some (k, st) =>
    if 2 * st.count > st.table_size then
      { s with table := s.table.set tpos (some (k, (st.rehash).2)) }
    else s
  | none => s

/-- Input selector for the fuelled mutual recursion between `__setitem__` and
`_rehash`. -/
inductive OpIn (V : Type) where
  | set (s : DKT V) (k1 k2 : String) (v : V)
  | rehash (s : DKT V)

/-- `DoubleKeyTable.__setitem__` and `DoubleKeyTable._rehash` as one
fuel-indexed function; fuel decreases on every cross-call, and with fuel 0 a
pending outer grow is skipped, which no run started with adequate fuel reaches
(each `_rehash` raises `size_index` and returns at once past the ladder).

`__setitem__`: an insertion probe (which may allocate the inner table), then
three write cases on the inner slot — inner table empty: write and bump both
counts; slot empty: write and bump the inner count; slot holds `key2`:
overwrite.  Then `_rehash` the outer table when
`element_count > table_size / 2`, and afterwards grow the aliased `sub_table`
when its own load exceeds half — if the outer table was actually rebuilt that
alias is an orphan of the old table and the grow has no observable effect.

`_rehash`: keep the old array, advance `size_index` (returning at once, with
the bumped index, when it runs past the ladder), allocate the next rung, reset
`element_count`, and re-insert every (key1, key2, value) triple in array order
through `__setitem__`; an exception aborts the loop and propagates with the
partially rebuilt state. -/
def opF : Nat → OpIn V → Except Err Unit × DKT V
  | 0, .set s _ _ _ => (.ok (), s)
  | 0, .rehash s => (.ok (), s)
  | n + 1, .set s k1 k2 v =>
    match s.linear_probe k1 k2 true with
    | (.error e, s') => (.error e, s')
    | (.ok (tpos, spos), s1) =>
      match s1.table.getD tpos none with
      | none => (.error .typeError, s1)
      | some (sk, st) =>
        let slot := st.array.getD spos none
        let st1 : LPT V :=
          if st.is_empty then
            { st with array := st.array.set spos (some (k2, v)),
                      count := st.count + 1 }
          else if slot.isNone then
            { st with array := st.array.set spos (some (k2, v)),
                      count := st.count + 1 }
          else if slot.elim false (fun kv => kv.1 = k2) then
            { st with array := st.array.set spos (some (k2, v)) }
          else st
        let d : Nat := if st.is_empty then 1 else 0
        let s2 : DKT V :=
          { s1 with table := s1.table.set tpos (some (sk, st1)),
                    element_count := s1.element_count + d }
        if 2 * s2.element_count > s2.table_size then
          match opF n (.rehash s2) with
          | (.error e, s3) => (.error e, s3)
          | (.ok (), s3) =>
            if s2.size_index + 1 < s2.sizes.length then (.ok (), s3)
            else (.ok (), innerCheck s3 tpos)
        else (.ok (), innerCheck s2 tpos)
  | n + 1, .rehash s =>
    let s' : DKT V := { s with size_index := s.size_index + 1 }
    if s.sizes.length ≤ s'.size_index then (.ok (), s')
    else
      let s0 : DKT V :=
        { s' with table := List.replicate (s.sizes.getD s'.size_index 0) none,
                  element_count := 0 }
      (s.table.filterMap id).foldl
        (fun acc entry =>
          match acc.1 with
          | .error _ => acc
          | .ok () =>
            (entry.2.array.filterMap id).foldl
              (fun acc2 kv =>
                match acc2.1 with
                | .error _ => acc2
                | .ok () => opF n (.set acc2.2 entry.1 kv.1 kv.2))
              acc)
        ((.ok (), s0) : Except Err Unit × DKT V)

/-- `__setitem__` at a fuel budget that the rung-per-rehash bound keeps from
exhausting. -/
def setitem (s : DKT V) (k1 k2 : String) (v : V) : Except Err Unit × DKT V :=
  opF (2 * s.sizes.length + 8) (.set s k1 k2 v)

/-- `_rehash` at a fuel budget that the rung-per-rehash bound keeps from
exhausting. -/
def rehash (s : DKT V) : Except Err Unit × DKT V :=
  opF (2 * s.sizes.length + 8) (.rehash s)

/-- The cluster-repair walk at the end of `__delitem__`: starting just after
the deleted inner slot, while slots are occupied, remove the entry and
re-insert it at the position an insertion probe now produces, then advance;
stop at the first empty slot.  A FullError from the re-insertion probe would
propagate (it cannot arise: the walk keeps at least one slot empty).  The fuel
bounds the walk; every terminating Python run fits under the budget passed by
`delitem` below. -/
def walkAux (fuel : Nat) (t : LPT V) (pos : Nat) : Except Err Unit × LPT V :=
  match fuel with
  | 0 => (.ok (), t)
  | n + 1 =>
    match t.array.getD pos none with
    | none => (.ok (), t)
    | some (k2, v) =>
      let t1 : LPT V := { t with array := t.array.set pos none }
      match t1.linear_probe k2 true with
      | .error e => (.error e, t1)
      | .ok np =>
        walkAux n { t1 with array := t1.array.set np (some (k2, v)) }
          ((pos + 1) % t.table_size)

/-- `__delitem__`: a lookup probe, clear the inner slot and decrement the
inner count; if the inner table emptied, clear the whole outer slot and
decrement `element_count`; otherwise run the cluster-repair walk over the
inner table. -/
def delitem (s : DKT V) (k1 k2 : String) : Except Err Unit × DKT V :=
  match (s.linear_probe k1 k2 false).1 with
  | .error e => (.error e, s)
  | .ok (tpos, spos) =>
    match s.table.getD tpos none with
    | none => (.error .typeError, s)
    | some (sk, st) =>
      let st1 : LPT V :=
        { st with array := st.array.set spos none, count := st.count - 1 }
      if st1.count = 0 then
        (.ok (), { s with table := s.table.set tpos none,
                          element_count := s.element_count - 1 })
      else
        match walkAux (st1.table_size * st1.table_size * (st1.table_size + 2)
            + st1.table_size + 2) st1 ((spos + 1) % st1.table_size) with
        | (.error e, st2) =>
          (.error e, { s with table := s.table.set tpos (some (sk, st2)) })
        | (.ok (), st2) =>
          (.ok (), { s with table := s.table.set tpos (some (sk, st2)) })

/-- The scan shared by scoped `keys`/`values`: walk the probe sequence of
`key`; an empty slot raises KeyError; a slot holding `key` returns its inner
table; exhausting the loop falls off the end of the Python function, which
returns `None` — modelled as `.ok none`. -/
def findEntry (s : DKT V) (key : String) :
    Nat → Nat → Except Err (Option (LPT V))
  | 0, _ => .ok none
  | n + 1, pos =>
    match s.table.getD pos none with
    | none => .error .keyError
    | some (k, st) =>
      if k = key then .ok (some st)
      else s.findEntry key n ((pos + 1) % s.table_size)

/-- `keys`: with no argument, the key1 of every occupied outer slot in array
order; with `key`, the located inner table's own keys.  `.ok none` models the
Python `None` that the scoped form returns when the probe scan exhausts the
table without resolving. -/
def keysF (s : DKT V) (key : Option String) : Except Err (Option (List String)) :=
  match key with
  | none => .ok (some ((s.table.filterMap id).map Prod.fst))
  | some k =>
    match s.findEntry k s.table_size (s.hash1 k) with
    | .error e => .error e
    | .ok none => .ok none
    | .ok (some st) => .ok (some st.keys)

/-- `values`: with no argument, all inner tables' values flattened in array
order; with `key`, the located inner table's own values.  `.ok none` models
the Python `None` of the exhausted scoped scan. -/
def valuesF (s : DKT V) (key : Option String) : Except Err (Option (List V)) :=
  match key with
  | none => .ok (some ((s.table.filterMap id).foldl
      (fun acc entry => acc ++ entry.2.values) []))
  | some k =>
    match s.findEntry k s.table_size (s.hash1 k) with
    | .error e => .error e
    | .ok none => .ok none
    | .ok (some st) => .ok (some st.values)

/-- Exceptions a cursor step can raise: `runtimeError` is the PEP 479
conversion of a `StopIteration` raised inside a generator body;
`indexError` an out-of-range fresh-list subscript; `typeError` subscripting
the `None` that the scoped `keys`/`values` scan can return; `keyError`
propagated from the fresh recomputation; `baseException` the explicit
`raise BaseException` in `iter_values`. -/
inductive AbErr where
  | runtimeError : AbErr
  | indexError : AbErr
  | typeError : AbErr
  | keyError : AbErr
  | baseException : AbErr
  deriving DecidableEq, Repr

/-- One observable event of a generator cursor: a yielded element, normal
exhaustion, or abnormal termination with the exception the generator body
raises. -/
inductive Step (α : Type) where
  | yield (a : α) : Step α
  | stop : Step α
  | abnormal (e : AbErr) : Step α
  deriving DecidableEq, Repr

/-- One step of the `iter_keys` generator against the current table state
`s`: with snapshot `snap` (the `keys(key)` list computed when the generator
body first ran) and cursor index `i`.  While `i < len(snap)` the body
recomputes `keys(key)` and compares only its element at index `i` with the
snapshot's element there (via the iterator over the aliased snapshot list),
yielding on equality and raising `StopIteration` — which PEP 479 turns into
`RuntimeError` — on inequality. -/
def iterKeysStep (s : DKT V) (key : Option String) (snap : List String)
    (i : Nat) : Step String :=
  if i < snap.length then
    match s.keysF key with
    | .error _ => .abnormal .keyError
    | .ok none => .abnormal .typeError
    | .ok (some fresh) =>
      if i < fresh.length then
        if fresh.getD i "" = snap.getD i "" then .yield (snap.getD i "")
        else .abnormal .runtimeError
      else .abnormal .indexError
  else .stop

/-- One step of the `iter_values` generator against the current table state
`s`: with snapshot `snap` (the `values(key)` list computed when the generator
body first ran) and cursor index `i`.  While `i < len(snap)` the body
recomputes `values(key)` and compares the whole list with the snapshot,
yielding `snap[i]` on equality and raising `BaseException` otherwise. -/
def iterValuesStep [DecidableEq V] (s : DKT V) (key : Option String)
    (snap : List V) (i : Nat) : Step V :=
  if h : i < snap.length then
    match s.valuesF key with
    | .error _ => .abnormal .keyError
    | .ok fresh =>
      if fresh = some snap then .yield (snap.get ⟨i, h⟩)
      else .abnormal .baseException
  else .stop

/-- The inner table currently stored for a given key1 (first occurrence in
array order), used to observe inner-table capacities across resizes. -/
def innerTableFor (s : DKT V) (k : String) : Option (LPT V) :=
  ((s.table.filterMap id).find? (fun e => e.1 = k)).map Prod.snd

end DKT

open DKT

/-! ## Concrete runs used to settle the claims

Every state below is reachable through the public interface alone:
construction with an explicit ascending size ladder followed by `__setitem__`
and `__delitem__` calls.  With the outer ladder `[5, 13]` the single-character
keys hash as `hash1 "a" = 2`, `hash1 "b" = 3`, `hash1 "f" = 102 % 5 = 2`, so
"a" and "f" collide at outer slot 2 while the table is at capacity 5. -/

/-- Shorthand: perform a set and keep only the resulting state. -/
def doSet (s : DKT Nat) (k1 k2 : String) (v : Nat) : DKT Nat :=
  (DKT.setitem s k1 k2 v).2

/-- Shorthand: perform a delete and keep only the resulting state. -/
def doDel (s : DKT Nat) (k1 k2 : String) : DKT Nat :=
  (DKT.delitem s k1 k2).2

/-- C1 run, step 0: a table with outer and inner ladders `[5, 13]`. -/
def c1_s0 : DKT Nat := DKT.init (some [5, 13]) none

/-- C1 run after `set("a","x",0)`, `set("f","x",10)`, `del("a","x")`,
`set("b","y",1)`.  The delete emptied the inner table of "a" and cleared
outer slot 2 without outer-level cluster repair, so the later
`set("f",...)` call below finds the hole first and creates a second,
duplicate outer entry for "f". -/
def c1_s4 : DKT Nat :=
  doSet (doDel (doSet (doSet c1_s0 "a" "x" 0) "f" "x" 10) "a" "x") "b" "y" 1

/-- C1: the outcome of `set("f","x",99)` on `c1_s4`.  The write lands in the
duplicate entry at slot 2, the raised `element_count` (3 > 5/2) triggers the
outer `_rehash`, and the rebuild re-inserts the stale `("f","x") ↦ 10` entry
from slot 3 after the fresh one, overwriting 99. -/
def c1_res : Except Err Unit × DKT Nat := DKT.setitem c1_s4 "f" "x" 99

/-- C2 run: `set("a","x",1)`, `set("f","x",2)` on ladders `[5, 13]`; "a"
occupies outer slot 2 and "f" probes on to slot 3. -/
def c2_s2 : DKT Nat :=
  doSet (doSet (DKT.init (some [5, 13]) none) "a" "x" 1) "f" "x" 2

/-- C2: the outcome of `del("a","x")` on `c2_s2`. -/
def c2_res : Except Err Unit × DKT Nat := DKT.delitem c2_s2 "a" "x"

/-- C5 run: a table whose only outer rung is 5 (inner ladder defaults to the
same), filled with five distinct key1 values, one entry each. -/
def c5_s0 : DKT Nat := DKT.init (some [5]) none

/-- C5 run after step 1. -/
def c5_s1 : DKT Nat := doSet c5_s0 "a" "k" 1

/-- C5 run after step 2. -/
def c5_s2 : DKT Nat := doSet c5_s1 "b" "k" 2

/-- C5 run after step 3. -/
def c5_s3 : DKT Nat := doSet c5_s2 "c" "k" 3

/-- C5 run after step 4. -/
def c5_s4 : DKT Nat := doSet c5_s3 "d" "k" 4

/-- C5 run after all five inserts: every outer slot occupied. -/
def c5_s5 : DKT Nat := doSet c5_s4 "e" "k" 5

/-- C7 run: outer ladder `[5, 13]`, inner ladder `[5]`.  The run first
stores one pair under "a" and five pairs under "f" (filling the inner table
of "f"), deletes the "a" pair — leaving the outer hole at slot 2 — and then
stores five pairs with fresh second keys under "f", which land in a new
duplicate inner table created at the hole.  Both inner tables for "f" are
full five-slot tables holding disjoint second keys. -/
def c7_s12 : DKT Nat :=
  doSet (doSet (doSet (doSet (doSet (doDel
    (doSet (doSet (doSet (doSet (doSet (doSet
      (DKT.init (some [5, 13]) (some [5]))
      "a" "x" 0) "f" "p0" 1) "f" "p1" 2) "f" "p2" 3) "f" "p3" 4) "f" "p4" 5)
    "a" "x") "f" "q0" 6) "f" "q1" 7) "f" "q2" 8) "f" "q3" 9) "f" "q4" 10

/-- C7: the outcome of `set("b","y",11)` on `c7_s12`. -/
def c7_res : Except Err Unit × DKT Nat := DKT.setitem c7_s12 "b" "y" 11

/-- C8 counterexample state: a freshly constructed table whose ladder `[5]`
has a single rung, so `size_index = 0` is the last rung. -/
def c8_s0 : DKT Nat := DKT.init (some [5]) none

/-- C3 run: on ladders `[5, 13]` (outer and inner), three pairs are stored
under "a"; the third insert pushes the inner table of "a" over half load, so
it grows to capacity 13.  Deleting two of the three pairs leaves one entry
in that capacity-13 inner table; a pair under "b" brings the table to the
brink of an outer resize. -/
def c3_s6 : DKT Nat :=
  doSet (doDel (doDel (doSet (doSet (doSet (DKT.init (some [5, 13]) none)
    "a" "x" 1) "a" "y" 2) "a" "z" 3) "a" "y") "a" "z") "b" "x" 4

/-- C3: the outcome of `set("c","x",5)` on `c3_s6`, which raises
`element_count` to 3 > 5/2 and triggers the outer `_rehash`. -/
def c3_res : Except Err Unit × DKT Nat := DKT.setitem c3_s6 "c" "x" 5

namespace DKT

/-- Repeated stepping of the `iter_values` cursor from index `i` against a
fixed table state: collects the yielded values until the cursor stops
normally (`none`) or terminates abnormally (`some e`); the fuel bounds the
number of steps taken. -/
def iterValuesRun [DecidableEq V] (s : DKT V) (key : Option String)
    (snap : List V) : Nat → Nat → List V × Option AbErr
  | 0, _ => ([], none)
  | n + 1, i =>
    match iterValuesStep s key snap i with
    | .yield v =>
      let r := iterValuesRun s key snap n (i + 1)
      (v :: r.1, r.2)
    | .stop => ([], none)
    | .abnormal e => ([], some e)

end DKT

/-- C9 counterexample run: two pairs under distinct key1 values "a", "b"
(the `iter_keys` snapshot over top-level keys is `["a", "b"]`). -/
def c9_s2 : DKT Nat :=
  doSet (doSet (DKT.init (some [5, 13]) none) "a" "x" 1) "b" "y" 2

/-- C9 counterexample run, mutated: the pair under "b" is deleted, so a
fresh `keys()` computation now yields `["a"]`, no longer matching the
snapshot `["a", "b"]`. -/
def c9_s3 : DKT Nat := doDel c9_s2 "b" "y"

/-! ## State invariants (claim C6)

`LPT.WF` is the inner-table invariant and `DKT.WF` the table invariant whose
preservation claim C6 asserts: accurate counts and no empty-but-present inner
table.  Both are strengthened with linear-probing reachability (every stored
key is found by its own lookup probe), which reachable states enjoy and which
the preservation proof needs inductively, and with well-formedness of the
size ladders (Python would fail to construct a zero-capacity backing array).
The deletion repair walk temporarily breaks reachability; `LPT.InRun` and
`LPT.WalkInv` describe the intermediate states, and `LPT.phi` is the
termination potential of the walk. -/

/-- Number of occupied slots of a backing array. -/
def occCount {α : Type} (a : List (Option α)) : Nat := (a.filterMap id).length

namespace LPT

variable {V : Type}

/-- Every stored key of the inner table is located by its own lookup probe at
exactly the slot storing it. -/
def Reach (t : LPT V) : Prop :=
  ∀ j, j < t.array.length → ∀ kv, t.array.getD j none = some kv →
    t.linear_probe kv.1 false = .ok j

/-- The inner-table invariant: accurate count, probe-reachability, and a
nonempty ladder of positive capacities. -/
def WF (t : LPT V) : Prop :=
  t.count = occCount t.array ∧ Reach t ∧ t.sizes ≠ [] ∧ ∀ r ∈ t.sizes, 1 ≤ r

/-- Slot `j` lies within the first `d + 1` slots of the contiguous occupied
run that starts at `start` (wrapping modulo the table size), for some
`d < table_size`. -/
def InRun (t : LPT V) (start j : Nat) : Prop :=
  ∃ d, d < t.table_size ∧ j = (start + d) % t.table_size ∧
    ∀ e, e ≤ d → ((t.array.getD ((start + e) % t.table_size) none).isSome)

/-- The invariant carried across the deletion repair walk at position `pos`:
accurate count, at least one empty slot, pairwise-distinct stored keys, and
every stored key either probe-reachable or inside the unprocessed occupied
run starting at `pos`. -/
def WalkInv (t : LPT V) (pos : Nat) : Prop :=
  t.count = occCount t.array ∧ t.count < t.table_size ∧
  (∀ j j' k v v', t.array.getD j none = some (k, v) →
    t.array.getD j' none = some (k, v') → j = j') ∧
  (∀ j, j < t.array.length → ∀ kv, t.array.getD j none = some kv →
    t.linear_probe kv.1 false = .ok j ∨ InRun t pos j)

/-- Cyclic distance from `a` to `b` modulo `n` (both below `n`). -/
def cycDist (n a b : Nat) : Nat := (b + n - a) % n

/-- Displacement of the entry in slot `j` of array `a` from its hash
position, in a table of capacity `n` (0 for an empty slot). -/
def slotCost (n : Nat) (a : List (Option (String × V))) (j : Nat) : Nat :=
  (a.getD j none).elim 0 (fun kv => cycDist n (hashString n kv.1) j)

/-- Termination potential of the repair walk: the total cyclic displacement
of every stored entry from its hash position. -/
def phi (t : LPT V) : Nat :=
  ∑ j ∈ Finset.range t.table_size, slotCost t.table_size t.array j

end LPT

namespace DKT

variable {V : Type}

/-- The double-table state invariant of the claim: a nonempty outer array
whose `element_count` equals the number of occupied outer slots, every
occupied slot holding a well-formed inner table with at least one entry, and
positive ladders. -/
def WF (s : DKT V) : Prop :=
  1 ≤ s.table.length ∧
  s.element_count = occCount s.table ∧
  (∀ j, j < s.table.length → ∀ e, s.table.getD j none = some e →
    e.2.WF ∧ 1 ≤ e.2.count) ∧
  (∀ r ∈ s.sizes, 1 ≤ r) ∧
  s.internal_sizes ≠ [] ∧ (∀ r ∈ s.internal_sizes, 1 ≤ r)

/-- The innermost re-insertion step of the outer `_rehash`: one (key2, value)
pair of the entry under `k1` (the literal loop body inside `opF`). -/
def reinsertStepO (n : Nat) (k1 : String)
    (acc : Except Err Unit × DKT V) (kv : String × V) :
    Except Err Unit × DKT V :=
  match acc.1 with
  | .error _ => acc
  | .ok () => opF n (.set acc.2 k1 kv.1 kv.2)

/-- The per-outer-entry step of the outer `_rehash`: re-insert every pair of
one inner table (the literal loop body inside `opF`). -/
def entryStepO (n : Nat) (acc : Except Err Unit × DKT V)
    (entry : String × LPT V) : Except Err Unit × DKT V :=
  match acc.1 with
  | .error _ => acc
  | .ok () => (entry.2.array.filterMap id).foldl (reinsertStepO n entry.1) acc

end DKT

/-- Facts guarded by an optional value are decidable. -/
instance instDecOptForall {α : Type} (o : Option α) (P : α → Prop)
    [∀ a, Decidable (P a)] : Decidable (∀ a, o = some a → P a) :=
  match o with
  | none => isTrue (fun a h => Option.noConfusion h)
  | some b =>
    if h : P b then
      isTrue (fun a ha => by rw [← Option.some.inj ha]; exact h)
    else isFalse (fun hall => h (hall b rfl))

/-- Probe-reachability is decidable on concrete tables. -/
instance instDecReach {V : Type} [DecidableEq V] (t : LPT V) :
    Decidable (LPT.Reach t) := by
  unfold LPT.Reach
  infer_instance

/-- The inner invariant is decidable on concrete tables. -/
instance instDecWFL {V : Type} [DecidableEq V] (t : LPT V) :
    Decidable (LPT.WF t) := by
  unfold LPT.WF
  infer_instance

/-- The outer invariant is decidable on concrete tables. -/
instance instDecWFO {V : Type} [DecidableEq V] (s : DKT V) :
    Decidable (DKT.WF s) := by
  unfold DKT.WF
  infer_instance

/-! ## Claim theorems -/

/-- C1: on the reachable state `c1_s4`, `set("f","x",99)` completes without
`Full`, yet the immediately following `get("f","x")` returns 10, not 99 —
the round-trip property fails on the code (the deletion bug leaves an outer
probe hole, a later insert duplicates the key1, and the outer resize merges
the duplicates in array order with the stale value last). -/
theorem c1_set_then_get_returns_stale_value :
    c1_res.1 = .ok () ∧ DKT.getitem c1_res.2 "f" "x" = .ok 10 := by decide

/-- C2: deleting `("a","x")` empties the inner table of "a", so
`__delitem__` clears outer slot 2 — with no outer-level cluster repair.  The
other pair `("f","x")`, stored at slot 3 of the same outer probe cluster,
was retrievable before the delete and is unreachable after it: the delete
loses a surviving entry, contradicting the deletion-completeness claim. -/
theorem c2_delete_strands_cluster_neighbor :
    c2_res.1 = .ok () ∧
    DKT.getitem c2_s2 "f" "x" = .ok 2 ∧
    DKT.contains c2_res.2 "a" "x" = false ∧
    DKT.getitem c2_res.2 "f" "x" = .error .keyError := by decide

/-- C5: with the single-rung ladder `[5]`, each of the five inserts under
distinct key1 values succeeds, and the insert under a sixth distinct key1
fails with `FullError` — the insertion probe scans all five occupied outer
slots without finding the key or an empty slot, and the saturated `_rehash`
calls along the way cannot grow the table. -/
theorem c5_sixth_distinct_key1_raises_full :
    (DKT.setitem c5_s0 "a" "k" 1).1 = .ok () ∧
    (DKT.setitem c5_s1 "b" "k" 2).1 = .ok () ∧
    (DKT.setitem c5_s2 "c" "k" 3).1 = .ok () ∧
    (DKT.setitem c5_s3 "d" "k" 4).1 = .ok () ∧
    (DKT.setitem c5_s4 "e" "k" 5).1 = .ok () ∧
    c5_s5.element_count = 5 ∧ c5_s5.table_size = 5 ∧
    (DKT.setitem c5_s5 "f" "k" 6).1 = .error .fullError := by decide

/-- C4: on the full five-slot table `c5_s5`, the key1 "f" is absent (its
lookup raises KeyError), yet `keys("f")` and `values("f")` raise nothing:
their probe loops scan all `table_size` occupied slots, fall off the end of
the Python function and return `None` (modelled `.ok none`) instead of the
documented KeyError.  On a table that still has an empty slot in the scanned
cluster the same calls do raise KeyError. -/
theorem c4_scoped_keys_values_return_none_on_full_scan :
    DKT.getitem c5_s5 "f" "k" = .error .keyError ∧
    DKT.keysF c5_s5 (some "f") = .ok none ∧
    DKT.valuesF c5_s5 (some "f") = .ok none ∧
    DKT.keysF c5_s1 (some "f") = .error .keyError ∧
    DKT.valuesF c5_s1 (some "f") = .error .keyError := by decide

/-- C7: on the reachable state `c7_s12`, `set("b","y",11)` raises
`FullError` — while the triggered outer `_rehash` merges the two duplicate
"f" inner tables and the eleventh distinct second key overflows the merged
five-slot inner table — and the failed call leaves the table rebuilt at
capacity 13 with `element_count` dropped from 2 to 1 and the five `p`-values
gone from `values()`: the failure is not atomic. -/
theorem c7_failing_set_mutates_state :
    c7_res.1 = .error .fullError ∧
    c7_s12.table_size = 5 ∧ c7_res.2.table_size = 13 ∧
    c7_s12.element_count = 2 ∧ c7_res.2.element_count = 1 ∧
    DKT.valuesF c7_s12 none = .ok (some [10, 6, 7, 8, 9, 1, 2, 3, 4, 5]) ∧
    DKT.valuesF c7_res.2 none = .ok (some [10, 6, 7, 8, 9]) := by decide

/-- C8: calling `_rehash` at the last ladder rung is not a complete no-op:
it raises no error and leaves the array and `element_count` alone, but it
increments `size_index` from 0 to 1 (past the end of the ladder) before
noticing the ladder is exhausted — the claim that `size_index` is unchanged
fails. -/
theorem c8_saturated_rehash_bumps_size_index :
    (DKT.rehash c8_s0).1 = .ok () ∧
    c8_s0.size_index = 0 ∧
    (DKT.rehash c8_s0).2.size_index = 1 ∧
    (DKT.rehash c8_s0).2.table = c8_s0.table ∧
    (DKT.rehash c8_s0).2.element_count = c8_s0.element_count := by decide

/-- C8 amended: when `_rehash` runs with the current rung already the last
one (or `size_index` already past the ladder), it raises no error and the
resulting state is exactly the input state with `size_index` incremented by
one — backing array, `element_count`, and all stored entries untouched. -/
theorem c8_saturated_rehash_only_increments_size_index
    (s : DKT V) (h : s.sizes.length ≤ s.size_index + 1) :
    DKT.rehash s = (.ok (), { s with size_index := s.size_index + 1 }) := by
  show DKT.opF (2 * s.sizes.length + 7 + 1) (.rehash s) = _
  simp only [DKT.opF]
  rw [if_pos h]

/-- C8 amended, witness: the saturated-rehash description instantiated on
the concrete single-rung table `c8_s0`. -/
theorem c8_saturated_rehash_witness :
    c8_s0.sizes.length ≤ c8_s0.size_index + 1 ∧
    DKT.rehash c8_s0 = (.ok (), { c8_s0 with size_index := c8_s0.size_index + 1 }) :=
  ⟨by decide, c8_saturated_rehash_only_increments_size_index c8_s0 (by decide)⟩

/-- C3: the outer `_rehash` does not move the inner table of "a" wholesale —
before the resize that inner table has capacity 13, afterwards the inner
table associated with "a" has capacity 5: `_rehash` flattened the table into
its single remaining triple and rebuilt a fresh inner table from the first
rung of the internal ladder. -/
theorem c3_outer_rehash_changes_inner_capacity :
    (innerTableFor c3_s6 "a").map LPT.table_size = some 13 ∧
    c3_res.1 = .ok () ∧
    (innerTableFor c3_res.2 "a").map LPT.table_size = some 5 := by decide

/-- C3 amended: on the same run, the outer `_rehash` re-inserts every
(key1, key2, value) triple individually through `__setitem__`: the inner
table that "a" owns afterwards is freshly built starting at the first rung
of the internal ladder (`size_index` 0, capacity 5, single entry), rather
than the moved capacity-13 original; only the stored triples survive, and
they all remain retrievable with their original values. -/
theorem c3_outer_rehash_rebuilds_inner_tables :
    (innerTableFor c3_s6 "a").map LPT.table_size = some 13 ∧
    (innerTableFor c3_s6 "a").map LPT.count = some 1 ∧
    (innerTableFor c3_res.2 "a").map LPT.table_size = some 5 ∧
    (innerTableFor c3_res.2 "a").map LPT.size_index = some 0 ∧
    (innerTableFor c3_res.2 "a").map LPT.count = some 1 ∧
    DKT.getitem c3_res.2 "a" "x" = .ok 1 ∧
    DKT.getitem c3_res.2 "b" "x" = .ok 4 ∧
    DKT.getitem c3_res.2 "c" "x" = .ok 5 := by decide

/-- An `iter_values` cursor whose snapshot still matches the table yields the
tail of the snapshot from its current index and then stops, given enough
fuel. -/
theorem iterValuesRun_unchanged {V : Type} [DecidableEq V] (s : DKT V)
    (key : Option String) (snap : List V)
    (hs : DKT.valuesF s key = .ok (some snap)) :
    ∀ n i, snap.length - i < n →
      DKT.iterValuesRun s key snap n i = (snap.drop i, none) := by
  intro n
  induction n with
  | zero => omega
  | succ n ih =>
    intro i hi
    by_cases h : i < snap.length
    · have hstep : DKT.iterValuesStep s key snap i = .yield (snap.get ⟨i, h⟩) := by
        unfold DKT.iterValuesStep
        rw [dif_pos h, hs]
        simp
      have hdrop : snap.drop i = snap.get ⟨i, h⟩ :: snap.drop (i + 1) :=
        List.drop_eq_getElem_cons h
      simp only [DKT.iterValuesRun, hstep, ih (i + 1) (by omega), hdrop]
    · have hstep : DKT.iterValuesStep s key snap i = .stop := by
        unfold DKT.iterValuesStep
        rw [dif_neg h]
      simp only [DKT.iterValuesRun, hstep]
      rw [List.drop_eq_nil_of_le (by omega)]

/-- C9: an `iter_keys` cursor created on `c9_s2` (snapshot `["a", "b"]`)
whose table is then mutated to `c9_s3` — where a fresh `keys()` computation
returns `["a"]`, which no longer matches the snapshot — does not signal an
invalidation error on its next step: it yields "a", because the generator
only compares the fresh list at the cursor's current index. -/
theorem c9_iter_keys_yields_despite_snapshot_mismatch :
    DKT.keysF c9_s2 none = .ok (some ["a", "b"]) ∧
    DKT.keysF c9_s3 none = .ok (some ["a"]) ∧
    DKT.iterKeysStep c9_s3 none ["a", "b"] 0 = .yield "a" := by decide

/-- C9 amended: `iter_values` is fail-fast as claimed — a step taken while a
fresh `values(key)` no longer equals the snapshot terminates abnormally, and
an unmutated cursor yields exactly the snapshot in order and then stops —
but `iter_keys` compares only the element at the cursor's current index: a
step whose fresh `keys(key)` list agrees with the snapshot at that index
yields normally even if the lists differ elsewhere. -/
theorem c9_fail_fast_values_but_index_only_keys {V : Type} [DecidableEq V]
    (s1 s2 s3 : DKT V) (key : Option String) (vsnap : List V)
    (ksnap fresh : List String) (i j : Nat)
    (h1 : i < vsnap.length) (h2 : DKT.valuesF s1 key ≠ .ok (some vsnap))
    (h3 : DKT.valuesF s2 key = .ok (some vsnap))
    (h4 : j < ksnap.length) (h5 : DKT.keysF s3 key = .ok (some fresh))
    (h6 : j < fresh.length) (h7 : fresh.getD j "" = ksnap.getD j "") :
    (∃ e, DKT.iterValuesStep s1 key vsnap i = .abnormal e) ∧
    DKT.iterValuesRun s2 key vsnap (vsnap.length + 1) 0 = (vsnap, none) ∧
    DKT.iterKeysStep s3 key ksnap j = .yield (ksnap.getD j "") := by
  refine ⟨?_, ?_, ?_⟩
  · unfold DKT.iterValuesStep
    rw [dif_pos h1]
    match hv : DKT.valuesF s1 key with
    | .error e => exact ⟨.keyError, rfl⟩
    | .ok fr =>
      refine ⟨.baseException, ?_⟩
      have hne : fr ≠ some vsnap := fun hc => h2 (by rw [hv, hc])
      simp [hne]
  · have h := iterValuesRun_unchanged s2 key vsnap h3 (vsnap.length + 1) 0 (by omega)
    simpa using h
  · unfold DKT.iterKeysStep
    rw [if_pos h4, h5]
    simp only [if_pos h6, if_pos h7]

/-- C9 amended, witness: instantiated on the concrete run — the mutated
state invalidates the `iter_values` cursor, the unmutated state replays its
snapshot `[1, 2]` completely, and the mutated `iter_keys` cursor still
yields because index 0 of the fresh list agrees with the snapshot. -/
theorem c9_fail_fast_witness :
    (∃ e, DKT.iterValuesStep c9_s3 none [1, 2] 0 = .abnormal e) ∧
    DKT.iterValuesRun c9_s2 none [1, 2] 3 0 = ([1, 2], none) ∧
    DKT.iterKeysStep c9_s3 none ["a", "b"] 0 = .yield (["a", "b"].getD 0 "") :=
  c9_fail_fast_values_but_index_only_keys c9_s3 c9_s2 c9_s3 none [1, 2]
    ["a", "b"] ["a"] 0 0 (by decide) (by decide) (by decide) (by decide)
    (by decide) (by decide) (by decide)

/-- The polynomial hash lands strictly below the table size: the folded
value stays below `tableSize` at every character. -/
theorem hashString_lt (tableSize : Nat) (key : String) (h : 1 ≤ tableSize) :
    hashString tableSize key < tableSize := by
  have aux : ∀ (l : List Char) (v a : Nat), v < tableSize →
      (List.foldl
        (fun (p : Nat × Nat) c =>
          ((c.toNat + p.2 * p.1) % tableSize, p.2 * 31 % (tableSize - 1)))
        (v, a) l).1 < tableSize := by
    intro l
    induction l with
    | nil => intro v a hv; simpa using hv
    | cons c l ih =>
      intro v a hv
      simpa using ih ((c.toNat + a * v) % tableSize) (a * 31 % (tableSize - 1))
        (Nat.mod_lt _ (by omega))
  exact aux key.data 0 31415 (by omega)

/-- C10: on ladders all of whose rungs are at least 2, `hash1` and `hash2`
are total — in particular the moving-multiplier modulus `tableSize - 1` is
nonzero, so the Python code never divides by zero, including on the empty
string — and both return a position strictly inside the respective table. -/
theorem c10_hash1_hash2_total_and_in_range {V : Type} (s : DKT V) (st : LPT V)
    (k1 k2 : String)
    (h1 : ∀ r ∈ s.sizes, 2 ≤ r) (h2 : s.table_size ∈ s.sizes)
    (h3 : ∀ r ∈ st.sizes, 2 ≤ r) (h4 : st.table_size ∈ st.sizes) :
    s.table_size - 1 ≠ 0 ∧ st.table_size - 1 ≠ 0 ∧
    s.hash1 k1 < s.table_size ∧ DKT.hash2 s st k2 < st.table_size := by
  have hs : 2 ≤ s.table_size := h1 _ h2
  have ht : 2 ≤ st.table_size := h3 _ h4
  refine ⟨by omega, by omega, ?_, ?_⟩
  · exact hashString_lt _ _ (by omega)
  · exact hashString_lt _ _ (by omega)

/-! ## Indexing, counting and modular-arithmetic toolbox (for claim C6) -/

/-- Reading a backing array past its length yields the empty slot. -/
theorem getD_of_le {α : Type} :
    ∀ (a : List (Option α)) (j : Nat), a.length ≤ j → a.getD j none = none := by
  intro a
  induction a with
  | nil => intro j _; cases j <;> rfl
  | cons x xs ih =>
    intro j hj
    cases j with
    | zero => simp at hj
    | succ j => exact ih j (by simpa using hj)

/-- An occupied read stays within the array. -/
theorem lt_of_getD_some {α : Type} (a : List (Option α)) (j : Nat) (x : α)
    (h : a.getD j none = some x) : j < a.length := by
  by_contra hc
  rw [getD_of_le a j (by omega)] at h
  exact Option.noConfusion h

/-- Reading back a written slot. -/
theorem getD_set_self {α : Type} :
    ∀ (a : List (Option α)) (j : Nat), j < a.length →
      ∀ x, (a.set j x).getD j none = x := by
  intro a
  induction a with
  | nil => intro j hj; simp at hj
  | cons y ys ih =>
    intro j hj x
    cases j with
    | zero => rfl
    | succ j => exact ih j (by simpa using hj) x

/-- Writing one slot leaves every other slot unchanged. -/
theorem getD_set_ne {α : Type} :
    ∀ (a : List (Option α)) (j j' : Nat), j ≠ j' →
      ∀ x, (a.set j x).getD j' none = a.getD j' none := by
  intro a
  induction a with
  | nil => intro j j' _ x; cases j <;> rfl
  | cons y ys ih =>
    intro j j' hne x
    cases j with
    | zero =>
      cases j' with
      | zero => exact absurd rfl hne
      | succ j' => rfl
    | succ j =>
      cases j' with
      | zero => rfl
      | succ j' => exact ih j j' (by omega) x

/-- Rewriting a slot with the value it already holds is the identity. -/
theorem set_getD_self {α : Type} :
    ∀ (a : List (Option α)) (j : Nat) (x : Option α), a.getD j none = x →
      a.set j x = a := by
  intro a
  induction a with
  | nil => intro j x _; rfl
  | cons y ys ih =>
    intro j x hx
    cases j with
    | zero => simp at hx; simp [hx]
    | succ j => simpa using ih j x hx

/-- Occupancy after filling an empty slot. -/
theorem occCount_set_some_of_none {α : Type} :
    ∀ (a : List (Option α)) (j : Nat) (x : α), a.getD j none = none →
      j < a.length → occCount (a.set j (some x)) = occCount a + 1 := by
  intro a
  induction a with
  | nil => intro j x _ hj; simp at hj
  | cons y ys ih =>
    intro j x hget hj
    cases j with
    | zero =>
      have hy : y = none := by simpa using hget
      subst hy
      simp [occCount, List.filterMap]
    | succ j =>
      have := ih j x (by simpa using hget) (by simpa using hj)
      cases y with
      | none => simpa [occCount, List.filterMap] using this
      | some z => simpa [occCount, List.filterMap] using this

/-- Occupancy after overwriting an occupied slot. -/
theorem occCount_set_some_of_some {α : Type} :
    ∀ (a : List (Option α)) (j : Nat) (x y : α), a.getD j none = some y →
      occCount (a.set j (some x)) = occCount a := by
  intro a
  induction a with
  | nil => intro j x y h; cases j <;> exact Option.noConfusion h
  | cons z zs ih =>
    intro j x y hget
    cases j with
    | zero =>
      have hz : z = some y := by simpa using hget
      subst hz
      simp [occCount, List.filterMap]
    | succ j =>
      have := ih j x y (by simpa using hget)
      cases z with
      | none => simpa [occCount, List.filterMap] using this
      | some w => simpa [occCount, List.filterMap] using this

/-- Occupancy after clearing an occupied slot. -/
theorem occCount_set_none_of_some {α : Type} :
    ∀ (a : List (Option α)) (j : Nat) (y : α), a.getD j none = some y →
      occCount (a.set j none) + 1 = occCount a := by
  intro a
  induction a with
  | nil => intro j y h; cases j <;> exact Option.noConfusion h
  | cons z zs ih =>
    intro j y hget
    cases j with
    | zero =>
      have hz : z = some y := by simpa using hget
      subst hz
      simp [occCount, List.filterMap]
    | succ j =>
      have := ih j y (by simpa using hget)
      cases z with
      | none => simpa [occCount, List.filterMap] using this
      | some w => simpa [occCount, List.filterMap] using this

/-- Occupancy never exceeds the array length. -/
theorem occCount_le_length {α : Type} :
    ∀ (a : List (Option α)), occCount a ≤ a.length := by
  intro a
  induction a with
  | nil => simp [occCount]
  | cons y ys ih =>
    cases y with
    | none => simpa [occCount, List.filterMap] using Nat.le_succ_of_le ih
    | some z => simpa [occCount, List.filterMap] using ih

/-- A sub-full array has an empty slot. -/
theorem exists_none_of_occCount_lt {α : Type} :
    ∀ (a : List (Option α)), occCount a < a.length →
      ∃ q, q < a.length ∧ a.getD q none = none := by
  intro a
  induction a with
  | nil => intro h; simp [occCount] at h
  | cons y ys ih =>
    intro h
    cases y with
    | none => exact ⟨0, by simp, rfl⟩
    | some z =>
      have h' : occCount ys < ys.length := by
        simpa [occCount, List.filterMap] using h
      obtain ⟨q, hq, hget⟩ := ih h'
      exact ⟨q + 1, by simpa using hq, hget⟩

/-- Stepping a wrapped position is the same as wrapping the stepped
position. -/
theorem mod_step (n a : Nat) : (a % n + 1) % n = (a + 1) % n := by
  conv_rhs => rw [← Nat.mod_add_mod]

/-- Cyclic distance from `a` to the position `e` steps past `a`. -/
theorem cycDist_add_mod (n a e : Nat) (ha : a < n) (he : e < n) :
    LPT.cycDist n a ((a + e) % n) = e := by
  unfold LPT.cycDist
  rcases Nat.lt_or_ge (a + e) n with h | h
  · rw [Nat.mod_eq_of_lt h]
    have : a + e + n - a = e + n := by omega
    rw [this, Nat.add_mod_right, Nat.mod_eq_of_lt he]
  · have h2 : a + e < n + n := by omega
    have hm : (a + e) % n = a + e - n := by
      rw [Nat.mod_eq_sub_mod h, Nat.mod_eq_of_lt (by omega)]
    rw [hm]
    have : a + e - n + n - a = e := by omega
    rw [this, Nat.mod_eq_of_lt he]

/-- Advancing by the cyclic distance lands on the target. -/
theorem add_cycDist_mod (n a b : Nat) (ha : a < n) (hb : b < n) :
    (a + LPT.cycDist n a b) % n = b := by
  unfold LPT.cycDist
  rcases Nat.lt_or_ge b a with h | h
  · have hlt : b + n - a < n := by omega
    rw [Nat.mod_eq_of_lt hlt]
    have : a + (b + n - a) = b + n := by omega
    rw [this, Nat.add_mod_right, Nat.mod_eq_of_lt hb]
  · have h1 : b + n - a = (b - a) + n := by omega
    rw [h1, Nat.add_mod_right]
    have h2 : (b - a) % n = b - a := Nat.mod_eq_of_lt (by omega)
    rw [h2]
    have h3 : a + (b - a) = b := by omega
    rw [h3, Nat.mod_eq_of_lt hb]

/-! ## Probe-sequence lemmas (for claim C6) -/

namespace LPT

/-- Writing a slot never changes the capacity. -/
theorem table_size_set (t t' : LPT V) (q : Nat) (x : Option (String × V))
    (harr : t'.array = t.array.set q x) : t'.table_size = t.table_size := by
  unfold table_size
  rw [harr, List.length_set]

/-- The probe reads only the backing array: tables with equal arrays probe
identically. -/
theorem probeAux_congr (t t' : LPT V) (h : t.array = t'.array)
    (key : String) (ins : Bool) :
    ∀ fuel pos, t.probeAux key ins fuel pos = t'.probeAux key ins fuel pos := by
  have hl : t.table_size = t'.table_size := by unfold table_size; rw [h]
  intro fuel
  induction fuel with
  | zero => intro pos; rfl
  | succ n ih =>
    intro pos
    cases hg : t'.array.getD pos none with
    | none =>
      simp only [probeAux, h, hg]
    | some kv =>
      simp only [probeAux, h, hg]
      by_cases hk : kv.1 = key
      · simp [hk]
      · simp only [hk, ite_false, if_neg]
        rw [hl]
        exact ih ((pos + 1) % t'.table_size)

/-- A resolved probe stops at an empty slot (insertion only) or at the slot
holding the probed key. -/
theorem probe_ok_slot (t : LPT V) (key : String) (ins : Bool) :
    ∀ fuel pos p, t.probeAux key ins fuel pos = .ok p →
      (t.array.getD p none = none ∧ ins = true) ∨
      ∃ v, t.array.getD p none = some (key, v) := by
  intro fuel
  induction fuel with
  | zero =>
    intro pos p h
    cases ins <;> simp [probeAux] at h
  | succ n ih =>
    intro pos p h
    cases hg : t.array.getD pos none with
    | none =>
      simp only [probeAux, hg] at h
      cases ins with
      | false => simp at h
      | true =>
        simp at h
        subst h
        exact .inl ⟨hg, rfl⟩
    | some kv =>
      simp only [probeAux, hg] at h
      by_cases hk : kv.1 = key
      · rw [if_pos hk] at h
        have hp : pos = p := by simpa using h
        subst hp
        refine .inr ⟨kv.2, ?_⟩
        rw [hg]
        cases kv
        simp only at hk
        rw [hk]
      · rw [if_neg hk] at h
        exact ih _ _ h

/-- A probe started inside the table resolves inside the table. -/
theorem probe_ok_lt (t : LPT V) (key : String) (ins : Bool) :
    ∀ fuel pos p, pos < t.table_size → t.probeAux key ins fuel pos = .ok p →
      p < t.table_size := by
  intro fuel
  induction fuel with
  | zero => intro pos p _ h; cases ins <;> simp [probeAux] at h
  | succ n ih =>
    intro pos p hpos h
    cases hg : t.array.getD pos none with
    | none =>
      simp only [probeAux, hg] at h
      cases ins with
      | false => simp at h
      | true => simp at h; omega
    | some kv =>
      simp only [probeAux, hg] at h
      by_cases hk : kv.1 = key
      · rw [if_pos hk] at h
        have : pos = p := by simpa using h
        omega
      · rw [if_neg hk] at h
        exact ih _ _ (Nat.mod_lt _ (by omega)) h

/-- A lookup that resolves at `j` makes the insertion probe resolve at `j`
too (the two scans traverse identically and stop at the same slot). -/
theorem probe_lookup_insert (t : LPT V) (key : String) :
    ∀ fuel pos j, t.probeAux key false fuel pos = .ok j →
      t.probeAux key true fuel pos = .ok j := by
  intro fuel
  induction fuel with
  | zero => intro pos j h; simp [probeAux] at h
  | succ n ih =>
    intro pos j h
    cases hg : t.array.getD pos none with
    | none => simp only [probeAux, hg] at h; simp at h
    | some kv =>
      simp only [probeAux, hg] at h ⊢
      by_cases hk : kv.1 = key
      · rw [if_pos hk] at h ⊢; exact h
      · rw [if_neg hk] at h ⊢
        exact ih _ _ h

/-- Scan structure of a resolved lookup: the stop slot sits `d` steps past
the start, every slot strictly before it on the scan is occupied by another
key, and the stop slot holds the probed key. -/
theorem probe_scan (t : LPT V) (key : String) :
    ∀ fuel pos j, t.probeAux key false fuel pos = .ok j →
      ∃ d, d < fuel ∧ j = (pos + d) % t.table_size ∧
        (∀ e, e < d → ∃ kv,
          t.array.getD ((pos + e) % t.table_size) none = some kv ∧
          kv.1 ≠ key) ∧
        ∃ v, t.array.getD j none = some (key, v) := by
  intro fuel
  induction fuel with
  | zero => intro pos j h; simp [probeAux] at h
  | succ n ih =>
    intro pos j h
    cases hg : t.array.getD pos none with
    | none => simp only [probeAux, hg] at h; simp at h
    | some kv =>
      simp only [probeAux, hg] at h
      by_cases hk : kv.1 = key
      · rw [if_pos hk] at h
        have hp : pos = j := by simpa using h
        subst hp
        have hlt : pos < t.array.length := lt_of_getD_some _ _ _ hg
        refine ⟨0, by omega, ?_, by omega, kv.2, ?_⟩
        · rw [Nat.add_zero]
          exact (Nat.mod_eq_of_lt (show pos < t.table_size from hlt)).symm
        · rw [hg]
          cases kv
          simp only at hk
          rw [hk]
      · rw [if_neg hk] at h
        obtain ⟨d, hd, hj, hpre, hstop⟩ := ih _ _ h
        have hlt : pos < t.array.length := lt_of_getD_some _ _ _ hg
        refine ⟨d + 1, by omega, ?_, ?_, hstop⟩
        · rw [hj, Nat.mod_add_mod]
          congr 1
          omega
        · intro e he
          cases e with
          | zero =>
            refine ⟨kv, ?_, hk⟩
            have hmod : (pos + 0) % t.table_size = pos := by
              rw [Nat.add_zero]
              exact Nat.mod_eq_of_lt (show pos < t.table_size from hlt)
            rw [hmod, hg]
          | succ e =>
            obtain ⟨kv', hkv', hne'⟩ := hpre e (by omega)
            refine ⟨kv', ?_, hne'⟩
            rw [Nat.mod_add_mod] at hkv'
            rw [show pos + (e + 1) = pos + 1 + e by omega]
            exact hkv'

/-- Filling an empty slot with another key leaves every resolved lookup
resolved at the same slot. -/
theorem probe_lookup_fill (t t' : LPT V) (q : Nat) (k' : String) (v' : V)
    (hq : t.array.getD q none = none)
    (harr : t'.array = t.array.set q (some (k', v')))
    (key : String) (hk : k' ≠ key) :
    ∀ fuel pos j, t.probeAux key false fuel pos = .ok j →
      t'.probeAux key false fuel pos = .ok j := by
  have hts : t'.table_size = t.table_size := table_size_set t t' q _ harr
  intro fuel
  induction fuel with
  | zero => intro pos j h; simp [probeAux] at h
  | succ n ih =>
    intro pos j h
    cases hg : t.array.getD pos none with
    | none => simp only [probeAux, hg] at h; simp at h
    | some kv =>
      have hpq : q ≠ pos := by
        intro hc
        rw [hc, hg] at hq
        exact Option.noConfusion hq
      have hg' : t'.array.getD pos none = some kv := by
        rw [harr, getD_set_ne _ _ _ hpq, hg]
      simp only [probeAux, hg] at h
      simp only [probeAux, hg']
      by_cases hke : kv.1 = key
      · rw [if_pos hke] at h ⊢; exact h
      · rw [if_neg hke] at h ⊢
        rw [hts]
        exact ih _ _ h

/-- After writing a key at the empty slot its insertion probe resolved to,
the key's lookup resolves at that slot. -/
theorem probe_insert_fill_self (t t' : LPT V) (q : Nat) (key : String) (v : V)
    (hq : t.array.getD q none = none) (hql : q < t.array.length)
    (harr : t'.array = t.array.set q (some (key, v))) :
    ∀ fuel pos, t.probeAux key true fuel pos = .ok q →
      t'.probeAux key false fuel pos = .ok q := by
  have hts : t'.table_size = t.table_size := table_size_set t t' q _ harr
  have hg' : t'.array.getD q none = some (key, v) := by
    rw [harr]
    exact getD_set_self _ _ hql _
  intro fuel
  induction fuel with
  | zero => intro pos h; simp [probeAux] at h
  | succ n ih =>
    intro pos h
    cases hg : t.array.getD pos none with
    | none =>
      simp only [probeAux, hg] at h
      have hpq : pos = q := by simpa using h
      subst hpq
      simp only [probeAux, hg']
      simp
    | some kv =>
      simp only [probeAux, hg] at h
      by_cases hk : kv.1 = key
      · rw [if_pos hk] at h
        have hpq : pos = q := by simpa using h
        rw [← hpq] at hq
        rw [hg] at hq
        exact Option.noConfusion hq
      · rw [if_neg hk] at h
        have hpq : q ≠ pos := by
          intro hc
          rw [hc, hg] at hq
          exact Option.noConfusion hq
        have hgp : t'.array.getD pos none = some kv := by
          rw [harr, getD_set_ne _ _ _ hpq, hg]
        simp only [probeAux, hgp]
        rw [if_neg hk, hts]
        exact ih _ h

/-- An insertion probe resolves no later than the first known empty slot on
its scan: if the slot `e0` steps ahead is empty, the probe resolves at most
`e0` steps ahead. -/
theorem probe_insert_hits (t : LPT V) (key : String) :
    ∀ fuel pos e0, pos < t.table_size → e0 < fuel →
      t.array.getD ((pos + e0) % t.table_size) none = none →
      ∃ e, e ≤ e0 ∧
        t.probeAux key true fuel pos = .ok ((pos + e) % t.table_size) := by
  intro fuel
  induction fuel with
  | zero => intro pos e0 _ he0 _; omega
  | succ n ih =>
    intro pos e0 hpos he0 hnone
    cases hg : t.array.getD pos none with
    | none =>
      refine ⟨0, by omega, ?_⟩
      simp only [probeAux, hg]
      rw [Nat.add_zero, Nat.mod_eq_of_lt hpos]
      simp
    | some kv =>
      by_cases hk : kv.1 = key
      · refine ⟨0, by omega, ?_⟩
        simp only [probeAux, hg]
        rw [if_pos hk, Nat.add_zero, Nat.mod_eq_of_lt hpos]
      · have he0ne : e0 ≠ 0 := by
          intro hc
          rw [hc, Nat.add_zero, Nat.mod_eq_of_lt hpos] at hnone
          rw [hnone] at hg
          exact Option.noConfusion hg
        have hlen : 0 < t.table_size := by omega
        have hnone' :
            t.array.getD (((pos + 1) % t.table_size + (e0 - 1)) % t.table_size)
              none = none := by
          rw [Nat.mod_add_mod, show pos + 1 + (e0 - 1) = pos + e0 by omega]
          exact hnone
        obtain ⟨e', he', hok⟩ := ih ((pos + 1) % t.table_size) (e0 - 1)
          (Nat.mod_lt _ hlen) (by omega) hnone'
        refine ⟨e' + 1, by omega, ?_⟩
        simp only [probeAux, hg]
        rw [if_neg hk, hok, Nat.mod_add_mod,
          show pos + 1 + e' = pos + (e' + 1) by omega]

/-- Clearing an occupied slot `q` either leaves a resolved lookup resolved
at the same slot, or strands its stop slot inside the occupied run that
starts just past `q` — the dichotomy behind the repair-walk invariant. -/
theorem probe_lookup_clear (t t' : LPT V) (q : Nat) (y : String × V)
    (hq : t.array.getD q none = some y)
    (harr : t'.array = t.array.set q none) (key : String) :
    ∀ fuel, fuel ≤ t.table_size → ∀ pos j, j ≠ q →
      t.probeAux key false fuel pos = .ok j →
      t'.probeAux key false fuel pos = .ok j ∨
      InRun t' ((q + 1) % t.table_size) j := by
  have hts : t'.table_size = t.table_size := table_size_set t t' q _ harr
  intro fuel
  induction fuel with
  | zero => intro _ pos j _ h; simp [probeAux] at h
  | succ n ih =>
    intro hfuel pos j hjq h
    cases hg : t.array.getD pos none with
    | none => simp only [probeAux, hg] at h; simp at h
    | some kv =>
      simp only [probeAux, hg] at h
      by_cases hk : kv.1 = key
      · rw [if_pos hk] at h
        have hp : pos = j := by simpa using h
        subst hp
        have hpq : q ≠ pos := fun hc => hjq hc.symm
        have hg' : t'.array.getD pos none = some kv := by
          rw [harr, getD_set_ne _ _ _ hpq, hg]
        left
        simp only [probeAux, hg']
        rw [if_pos hk]
      · rw [if_neg hk] at h
        by_cases hpq : pos = q
        · subst hpq
          right
          obtain ⟨d, hd, hj, hpre, v, hstop⟩ := probe_scan t key n _ _ h
          have hlen : 0 < t.table_size :=
            lt_of_le_of_lt (Nat.zero_le _) (lt_of_getD_some _ _ _ hg)
          have hdlen : d + 1 < t.table_size := by omega
          refine ⟨d, by rw [hts]; omega, ?_, ?_⟩
          · rw [hj, hts]
          · intro e he
            have hne : ((pos + 1) % t.table_size + e) % t.table_size ≠ pos := by
              rw [Nat.mod_add_mod]
              intro hc
              have h1 : (pos + (1 + e)) % t.table_size = pos := by
                rw [show pos + 1 + e = pos + (1 + e) by omega] at hc
                exact hc
              have h2 : pos < t.table_size := lt_of_getD_some _ _ _ hg
              have h3 : 1 + e < t.table_size := by omega
              have := cycDist_add_mod t.table_size pos (1 + e) h2 h3
              rw [h1] at this
              unfold cycDist at this
              rw [show pos + t.table_size - pos = t.table_size by omega,
                Nat.mod_self] at this
              omega
            rcases Nat.lt_or_ge e d with he' | he'
            · obtain ⟨kv', hkv', _⟩ := hpre e he'
              have : t'.array.getD (((pos + 1) % t.table_size + e) %
                  t.table_size) none = some kv' := by
                rw [harr, getD_set_ne]
                · exact hkv'
                · exact fun hc => hne hc.symm
              rw [hts]
              rw [this]
              rfl
            · have hed : e = d := by omega
              subst hed
              have : t'.array.getD (((pos + 1) % t.table_size + e) %
                  t.table_size) none = some (key, v) := by
                rw [harr, getD_set_ne]
                · rw [← hj]; exact hstop
                · exact fun hc => hne hc.symm
              rw [hts]
              rw [this]
              rfl
        · have hg' : t'.array.getD pos none = some kv := by
            rw [harr, getD_set_ne _ _ _ (fun hc => hpq hc.symm), hg]
          have hrec := ih (by omega) ((pos + 1) % t.table_size) j hjq h
          rcases hrec with hl | hr
          · left
            simp only [probeAux, hg']
            rw [if_neg hk, hts]
            exact hl
          · right
            exact hr

/-- Writing one slot shifts the walk potential by the difference of that
slot's displacement (additively, in Nat). -/
theorem phi_set (t t' : LPT V) (q : Nat) (x : Option (String × V))
    (hq : q < t.table_size) (harr : t'.array = t.array.set q x) :
    phi t' + slotCost t.table_size t.array q =
      phi t + slotCost t.table_size t'.array q := by
  have hts : t'.table_size = t.table_size := table_size_set t t' q _ harr
  have hmem : q ∈ Finset.range t.table_size := Finset.mem_range.mpr hq
  have hphi' : phi t' = ∑ j ∈ Finset.range t.table_size,
      slotCost t.table_size t'.array j := by
    unfold phi
    rw [hts]
  have hsum : ∀ (a : List (Option (String × V))),
      ∑ j ∈ Finset.range t.table_size, slotCost t.table_size a j =
        slotCost t.table_size a q +
          ∑ j ∈ (Finset.range t.table_size).erase q,
            slotCost t.table_size a j := by
    intro a
    exact (Finset.add_sum_erase _ _ hmem).symm
  have hoff : ∀ j, j ∈ (Finset.range t.table_size).erase q →
      slotCost t.table_size t'.array j = slotCost t.table_size t.array j := by
    intro j hj
    have hne : q ≠ j := fun hc => (Finset.mem_erase.mp hj).1 hc.symm
    unfold slotCost
    rw [harr, getD_set_ne _ _ _ hne]
  have herase : ∑ j ∈ (Finset.range t.table_size).erase q,
      slotCost t.table_size t'.array j =
        ∑ j ∈ (Finset.range t.table_size).erase q,
          slotCost t.table_size t.array j :=
    Finset.sum_congr rfl hoff
  rw [hphi']
  unfold phi
  rw [hsum t'.array, hsum t.array, herase]
  omega

/-- Advancing by a nonzero amount below the modulus moves off the start. -/
theorem add_mod_ne_self (n pos m : Nat) (hpos : pos < n) (hm0 : 0 < m)
    (hmn : m < n) : (pos + m) % n ≠ pos := by
  intro hc
  have h1 := cycDist_add_mod n pos m hpos hmn
  rw [hc] at h1
  unfold cycDist at h1
  rw [show pos + n - pos = n by omega, Nat.mod_self] at h1
  omega

/-- One step of the repair walk, fully analysed: from a live slot under the
walk invariant, the re-insertion probe of the removed entry resolves at an
empty slot `np`; re-inserting there preserves the invariant at the advanced
position, keeps the count, capacity and ladder, and either moves nothing
(`np = pos`) or strictly decreases the walk potential. -/
theorem walk_step (t : LPT V) (pos : Nat) (k2 : String) (v2 : V)
    (hinv : WalkInv t pos) (hpos : pos < t.table_size)
    (hg : t.array.getD pos none = some (k2, v2)) :
    ∃ np,
      ({ t with array := t.array.set pos none } : LPT V).linear_probe k2 true
        = .ok np ∧ np < t.table_size ∧
      WalkInv { t with array := (t.array.set pos none).set np (some (k2, v2)) }
        ((pos + 1) % t.table_size) ∧
      (np = pos → (t.array.set pos none).set np (some (k2, v2)) = t.array) ∧
      (np ≠ pos →
        phi { t with array := (t.array.set pos none).set np (some (k2, v2)) }
          < phi t) := by
  obtain ⟨hacc, hlt, huniq, hQ⟩ := hinv
  have hlen : 0 < t.table_size := by omega
  have hposl : pos < t.array.length := hpos
  set t1 : LPT V := { t with array := t.array.set pos none } with ht1
  have ht1arr : t1.array = t.array.set pos none := rfl
  have ht1ts : t1.table_size = t.table_size := by
    unfold table_size
    rw [ht1arr, List.length_set]
  have hhlt : hashString t.table_size k2 < t.table_size :=
    hashString_lt t.table_size k2 (by omega)
  have he0lt : cycDist t.table_size (hashString t.table_size k2) pos
      < t.table_size := Nat.mod_lt _ (by omega)
  have hlands : (hashString t.table_size k2 +
      cycDist t.table_size (hashString t.table_size k2) pos) % t.table_size
      = pos :=
    add_cycDist_mod t.table_size (hashString t.table_size k2) pos hhlt hpos
  have hnone0 : t1.array.getD ((hashString t.table_size k2 +
      cycDist t.table_size (hashString t.table_size k2) pos) % t.table_size)
      none = none := by
    rw [hlands, ht1arr]
    exact getD_set_self _ _ hposl _
  have habsent : ∀ j v', t1.array.getD j none = some (k2, v') → False := by
    intro j v' hj
    have hjp : j ≠ pos := by
      intro hc
      rw [hc, ht1arr, getD_set_self _ _ hposl] at hj
      exact Option.noConfusion hj
    rw [ht1arr, getD_set_ne _ _ _ (fun hc => hjp hc.symm)] at hj
    exact hjp (huniq j pos k2 v' v2 hj hg)
  obtain ⟨e, hee0, hok⟩ := probe_insert_hits t1 k2 t1.table_size
    (hashString t.table_size k2)
    (cycDist t.table_size (hashString t.table_size k2) pos)
    (by rw [ht1ts]; exact hhlt) (by rw [ht1ts]; omega)
    (by rw [ht1ts]; exact hnone0)
  rw [ht1ts] at hok
  have hnplt : (hashString t.table_size k2 + e) % t.table_size < t.table_size :=
    Nat.mod_lt _ (by omega)
  set np := (hashString t.table_size k2 + e) % t.table_size with hnpdef
  have hnpl1 : np < t1.array.length := by
    rw [show t1.array.length = t.table_size from ht1ts]
    exact hnplt
  have hnpnone : t1.array.getD np none = none := by
    rcases probe_ok_slot t1 k2 true _ _ _
      (by rw [← ht1ts] at hok; exact hok) with h | ⟨v', hv'⟩
    · exact h.1
    · exact absurd hv' (fun hc => habsent np v' hc)
  have hlp : t1.linear_probe k2 true = .ok np := by
    unfold linear_probe
    rw [ht1ts]
    exact hok
  set t2 : LPT V :=
    { t with array := (t.array.set pos none).set np (some (k2, v2)) } with ht2
  have ht2arr : t2.array = t1.array.set np (some (k2, v2)) := rfl
  have ht2ts : t2.table_size = t.table_size := by
    unfold table_size
    rw [ht2arr, List.length_set, ht1arr, List.length_set]
  have ht2len : t2.array.length = t.table_size := ht2ts
  have hcde : cycDist t.table_size (hashString t.table_size k2) np = e :=
    cycDist_add_mod t.table_size (hashString t.table_size k2) e hhlt (by omega)
  have hknp : t2.array.getD np none = some (k2, v2) := by
    rw [ht2arr]
    exact getD_set_self _ _ hnpl1 _
  have hold : ∀ i (w : String × V), i ≠ np →
      t2.array.getD i none = some w →
      i ≠ pos ∧ t.array.getD i none = some w := by
    intro i w hin hi
    rw [ht2arr, getD_set_ne _ _ _ (fun hc => hin hc.symm), ht1arr] at hi
    have hip : i ≠ pos := by
      intro hc
      rw [hc, getD_set_self _ _ hposl] at hi
      exact Option.noConfusion hi
    rw [getD_set_ne _ _ _ (fun hc => hip hc.symm)] at hi
    exact ⟨hip, hi⟩
  refine ⟨np, hlp, hnplt, ⟨?_, ?_, ?_, ?_⟩, ?_, ?_⟩
  · -- count accuracy
    show t.count = occCount t2.array
    rw [ht2arr]
    have h1 : occCount (t.array.set pos none) + 1 = occCount t.array :=
      occCount_set_none_of_some _ _ _ hg
    have h2 : occCount (t1.array.set np (some (k2, v2))) =
        occCount t1.array + 1 :=
      occCount_set_some_of_none _ _ _ hnpnone hnpl1
    rw [h2, ht1arr]
    omega
  · -- count below capacity
    show t.count < t2.table_size
    rw [ht2ts]
    exact hlt
  · -- distinct keys
    intro j j' k v v' hj hj'
    by_cases hjn : j = np <;> by_cases hjn' : j' = np
    · rw [hjn, hjn']
    · exfalso
      have hkk : k2 = k := by
        have hi := hj
        rw [hjn, hknp] at hi
        exact ((Prod.ext_iff).mp (Option.some.inj hi)).1
      obtain ⟨hjp', hjt'⟩ := hold j' (k, v') hjn' hj'
      rw [← hkk] at hjt'
      exact hjp' (huniq j' pos k2 v' v2 hjt' hg)
    · exfalso
      have hkk : k2 = k := by
        have hi := hj'
        rw [hjn', hknp] at hi
        exact ((Prod.ext_iff).mp (Option.some.inj hi)).1
      obtain ⟨hjp, hjt⟩ := hold j (k, v) hjn hj
      rw [← hkk] at hjt
      exact hjp (huniq j pos k2 v v2 hjt hg)
    · obtain ⟨_, hjt⟩ := hold j (k, v) hjn hj
      obtain ⟨_, hjt'⟩ := hold j' (k, v') hjn' hj'
      exact huniq j j' k v v' hjt hjt'
  · -- reachability or run membership
    intro j hjlen kv hj
    by_cases hjnp : j = np
    · left
      have hkv : kv = (k2, v2) := by
        have hi := hj
        rw [hjnp, hknp] at hi
        exact (Option.some.inj hi).symm
      subst hjnp
      rw [hkv]
      have hfill := probe_insert_fill_self t1 t2 np k2 v2 hnpnone hnpl1
        ht2arr t.table_size (hashString t.table_size k2) hok
      show t2.probeAux k2 false t2.table_size
        (hashString t2.table_size k2) = .ok np
      rw [ht2ts]
      exact hfill
    · obtain ⟨ka, va⟩ := kv
      obtain ⟨hjp, hjt⟩ := hold j (ka, va) hjnp hj
      have hjtl : j < t.array.length := lt_of_getD_some _ _ _ hjt
      have hk2ne : k2 ≠ ka := by
        intro hc
        rw [← hc] at hjt
        exact hjp (huniq j pos k2 va v2 hjt hg)
      rcases hQ j hjtl (ka, va) hjt with hP | hIR
      · -- reachable in t: survives the clear (it avoided pos) and the fill
        have hclear := probe_lookup_clear t t1 pos (k2, v2) hg ht1arr ka
          t.table_size (le_refl _) (hashString t.table_size ka) j hjp hP
        rcases hclear with hl | hr
        · left
          have hfill := probe_lookup_fill t1 t2 np k2 v2 hnpnone ht2arr
            ka hk2ne t.table_size (hashString t.table_size ka) j hl
          show t2.probeAux ka false t2.table_size
            (hashString t2.table_size ka) = .ok j
          rw [ht2ts]
          exact hfill
        · right
          obtain ⟨d, hdlt, hjd, hocc⟩ := hr
          refine ⟨d, ?_, ?_, ?_⟩
          · rw [ht2ts]
            rw [ht1ts] at hdlt
            exact hdlt
          · rw [ht2ts]
            rw [ht1ts] at hjd
            exact hjd
          · intro e' he'
            have := hocc e' he'
            rw [ht1ts] at this
            rw [ht2ts]
            by_cases hx : ((pos + 1) % t.table_size + e') % t.table_size = np
            · rw [hx, hknp]
              rfl
            · rw [ht2arr,
                getD_set_ne _ _ _ (fun hc => hx hc.symm)]
              exact this
      · -- inside the old run: moves one slot up in the new run
        obtain ⟨d, hdlt, hjd, hocc⟩ := hIR
        have hd0 : d ≠ 0 := by
          intro hc
          rw [hc, Nat.add_zero, Nat.mod_eq_of_lt hpos] at hjd
          exact hjp hjd
        right
        refine ⟨d - 1, ?_, ?_, ?_⟩
        · rw [ht2ts]
          omega
        · rw [ht2ts, Nat.mod_add_mod,
            show pos + 1 + (d - 1) = pos + d by omega]
          exact hjd
        · intro e' he'
          rw [ht2ts, Nat.mod_add_mod,
            show pos + 1 + e' = pos + (e' + 1) by omega]
          have hin := hocc (e' + 1) (by omega)
          have hxpos : (pos + (e' + 1)) % t.table_size ≠ pos :=
            add_mod_ne_self t.table_size pos (e' + 1) hpos (by omega) (by omega)
          by_cases hx : (pos + (e' + 1)) % t.table_size = np
          · rw [hx, hknp]
            rfl
          · rw [ht2arr, getD_set_ne _ _ _ (fun hc => hx hc.symm), ht1arr,
              getD_set_ne _ _ _ (fun hc => hxpos hc.symm)]
            exact hin
  · -- np = pos: the array is restored verbatim
    intro hc
    rw [hc, List.set_set]
    exact set_getD_self _ _ _ hg
  · -- np ≠ pos: the potential strictly decreases
    intro hc
    show phi t2 < phi t
    have hene0 : e ≠ cycDist t.table_size (hashString t.table_size k2) pos := by
      intro hcc
      apply hc
      rw [hnpdef, hcc]
      exact hlands
    have h1 : phi t1 + slotCost t.table_size t.array pos =
        phi t + slotCost t.table_size t1.array pos :=
      phi_set t t1 pos none hpos ht1arr
    have h2 : phi t2 + slotCost t.table_size t1.array np =
        phi t1 + slotCost t.table_size t2.array np := by
      have := phi_set t1 t2 np (some (k2, v2)) (by rw [ht1ts]; exact hnplt)
        ht2arr
      rw [ht1ts] at this
      exact this
    have hc1 : slotCost t.table_size t.array pos =
        cycDist t.table_size (hashString t.table_size k2) pos := by
      unfold slotCost
      rw [hg]
      rfl
    have hc2 : slotCost t.table_size t1.array pos = 0 := by
      unfold slotCost
      rw [ht1arr, getD_set_self _ _ hposl]
      rfl
    have hc3 : slotCost t.table_size t1.array np = 0 := by
      unfold slotCost
      rw [hnpnone]
      rfl
    have hc4 : slotCost t.table_size t2.array np = e := by
      unfold slotCost
      rw [hknp]
      exact hcde
    rw [hc1, hc2] at h1
    rw [hc3, hc4] at h2
    omega

/-- When the walk reaches an empty slot, the excusable run ahead of it is
empty, so every stored key is probe-reachable again. -/
theorem walk_stop (t : LPT V) (pos : Nat) (hinv : WalkInv t pos)
    (hpos : pos < t.table_size) (hg : t.array.getD pos none = none) :
    t.count = occCount t.array ∧ Reach t := by
  obtain ⟨hacc, _, _, hQ⟩ := hinv
  refine ⟨hacc, ?_⟩
  intro j hj kv hkv
  rcases hQ j hj kv hkv with hP | hIR
  · exact hP
  · exfalso
    obtain ⟨d, _, _, hocc⟩ := hIR
    have h0 := hocc 0 (Nat.zero_le d)
    rw [Nat.add_zero, Nat.mod_eq_of_lt hpos, hg] at h0
    simp at h0

/-- The repair walk terminates within the fuel bound
`phi * (size + 1) + distance-to-an-empty-slot + 1`: it raises nothing,
changes only the backing array (count, ladder, rung and capacity are kept),
and restores count accuracy and probe-reachability. -/
theorem walk_completes :
    ∀ (fuel : Nat) (t : LPT V) (pos d : Nat), WalkInv t pos →
      pos < t.table_size → d < t.table_size →
      t.array.getD ((pos + d) % t.table_size) none = none →
      phi t * (t.table_size + 1) + d + 1 ≤ fuel →
      (DKT.walkAux fuel t pos).1 = .ok () ∧
      (DKT.walkAux fuel t pos).2.sizes = t.sizes ∧
      (DKT.walkAux fuel t pos).2.size_index = t.size_index ∧
      (DKT.walkAux fuel t pos).2.count = t.count ∧
      (DKT.walkAux fuel t pos).2.table_size = t.table_size ∧
      (DKT.walkAux fuel t pos).2.count =
        occCount (DKT.walkAux fuel t pos).2.array ∧
      Reach (DKT.walkAux fuel t pos).2 := by
  intro fuel
  induction fuel with
  | zero => intro t pos d _ _ _ _ hf; omega
  | succ n ih =>
    intro t pos d hinv hpos hd hnone hf
    cases hg : t.array.getD pos none with
    | none =>
      have hstop := walk_stop t pos hinv hpos hg
      have hred : DKT.walkAux (n + 1) t pos = (.ok (), t) := by
        simp only [DKT.walkAux, hg]
      rw [hred]
      exact ⟨rfl, rfl, rfl, rfl, rfl, hstop.1, hstop.2⟩
    | some kv =>
      obtain ⟨k2, v2⟩ := kv
      obtain ⟨np, hlp, hnplt, hinv2, hid, hdec⟩ :=
        walk_step t pos k2 v2 hinv hpos hg
      have hd0 : d ≠ 0 := by
        intro hc
        rw [hc, Nat.add_zero, Nat.mod_eq_of_lt hpos, hg] at hnone
        exact Option.noConfusion hnone
      have hlen : 0 < t.table_size := by omega
      have hstep : DKT.walkAux (n + 1) t pos =
          DKT.walkAux n
            { t with array := (t.array.set pos none).set np (some (k2, v2)) }
            ((pos + 1) % t.table_size) := by
        simp only [DKT.walkAux, hg, hlp]
      by_cases hnp : np = pos
      · -- identity move: the array is restored, the walk advances
        have harr := hid hnp
        have ht2t :
            ({ t with array := (t.array.set pos none).set np (some (k2, v2)) }
              : LPT V) = t := by
          rw [harr]
        rw [ht2t] at hstep hinv2
        have hnone' : t.array.getD (((pos + 1) % t.table_size + (d - 1)) %
            t.table_size) none = none := by
          rw [Nat.mod_add_mod, show pos + 1 + (d - 1) = pos + d by omega]
          exact hnone
        have hres := ih t ((pos + 1) % t.table_size) (d - 1) hinv2
          (Nat.mod_lt _ hlen) (by omega) hnone' (by omega)
        rw [hstep]
        exact hres
      · -- a real move: the potential strictly decreases
        have hphi := hdec hnp
        set t2 : LPT V :=
          { t with array := (t.array.set pos none).set np (some (k2, v2)) }
          with ht2
        have ht2ts : t2.table_size = t.table_size := by
          show ((t.array.set pos none).set np (some (k2, v2))).length =
            t.array.length
          rw [List.length_set, List.length_set]
        have hocc2 : occCount t2.array < t2.array.length := by
          have h1 : t2.count = occCount t2.array := hinv2.1
          have h2 : t2.count < t2.table_size := hinv2.2.1
          rw [h1] at h2
          exact h2
        obtain ⟨q, hql, hqnone⟩ := exists_none_of_occCount_lt t2.array hocc2
        have hqlt : q < t.table_size := by
          rw [show (t2.array.length : Nat) = t.table_size from ht2ts] at hql
          exact hql
        have hpos' : (pos + 1) % t.table_size < t.table_size :=
          Nat.mod_lt _ hlen
        have hd' : LPT.cycDist t.table_size ((pos + 1) % t.table_size) q
            < t.table_size := Nat.mod_lt _ (by omega)
        have hnone' : t2.array.getD
            (((pos + 1) % t.table_size +
              LPT.cycDist t.table_size ((pos + 1) % t.table_size) q) %
                t.table_size) none = none := by
          rw [add_cycDist_mod t.table_size _ q hpos' hqlt]
          exact hqnone
        have hmul : phi t2 * (t.table_size + 1) + (t.table_size + 1) ≤
            phi t * (t.table_size + 1) := by
          have h1 : phi t2 + 1 ≤ phi t := hphi
          calc phi t2 * (t.table_size + 1) + (t.table_size + 1)
              = (phi t2 + 1) * (t.table_size + 1) := by ring
            _ ≤ phi t * (t.table_size + 1) :=
                Nat.mul_le_mul_right _ h1
        have hres := ih t2 ((pos + 1) % t.table_size)
          (LPT.cycDist t.table_size ((pos + 1) % t.table_size) q)
          (by rw [show t.table_size = t2.table_size from ht2ts.symm] at hinv2 ⊢
              exact hinv2)
          (by rw [ht2ts]; exact hpos')
          (by rw [ht2ts]; exact hd')
          (by rw [ht2ts]; exact hnone')
          (by rw [ht2ts]; omega)
        rw [hstep]
        refine ⟨hres.1, hres.2.1, hres.2.2.1, hres.2.2.2.1, ?_,
          hres.2.2.2.2.2.1, hres.2.2.2.2.2.2⟩
        rw [hres.2.2.2.2.1, ht2ts]

end LPT

/-- An array with no occupied slot reads `none` everywhere. -/
theorem getD_none_of_occCount_zero {α : Type} :
    ∀ (a : List (Option α)), occCount a = 0 → ∀ j, a.getD j none = none := by
  intro a
  induction a with
  | nil => intro _ j; cases j <;> rfl
  | cons y ys ih =>
    intro h j
    cases y with
    | some z => simp [occCount, List.filterMap] at h
    | none =>
      cases j with
      | zero => rfl
      | succ j => exact ih (by simpa [occCount, List.filterMap] using h) j

/-- A replicated-`none` array reads `none` everywhere. -/
theorem getD_replicate {α : Type} :
    ∀ (n j : Nat), (List.replicate n (none : Option α)).getD j none = none := by
  intro n
  induction n with
  | zero => intro j; cases j <;> rfl
  | succ n ih =>
    intro j
    cases j with
    | zero => rfl
    | succ j => exact ih j

/-- A replicated-`none` array has no occupied slot. -/
theorem occCount_replicate {α : Type} :
    ∀ (n : Nat), occCount (List.replicate n (none : Option α)) = 0 := by
  intro n
  induction n with
  | zero => rfl
  | succ n ih => simpa [occCount, List.filterMap] using ih

/-- Membership in the occupied entries is membership at some slot. -/
theorem getD_of_mem_filterMap {α : Type} :
    ∀ (a : List (Option α)) (x : α), x ∈ a.filterMap id →
      ∃ j, j < a.length ∧ a.getD j none = some x := by
  intro a
  induction a with
  | nil => intro x hx; simp at hx
  | cons y ys ih =>
    intro x hx
    cases y with
    | none =>
      obtain ⟨j, hj, hget⟩ := ih x (by simpa [List.filterMap] using hx)
      exact ⟨j + 1, by simpa using hj, hget⟩
    | some z =>
      rw [show (some z :: ys).filterMap id = z :: ys.filterMap id from rfl] at hx
      rcases List.mem_cons.mp hx with hzx | hx'
      · exact ⟨0, by simp, by rw [hzx]; rfl⟩
      · obtain ⟨j, hj, hget⟩ := ih x hx'
        exact ⟨j + 1, by simpa using hj, hget⟩

/-- A ladder entry read inside the ladder is a ladder member. -/
theorem getD_mem_of_lt {α : Type} [Inhabited α] :
    ∀ (l : List α) (n : Nat) (d : α), n < l.length → l.getD n d ∈ l := by
  intro l
  induction l with
  | nil => intro n d h; simp at h
  | cons x xs ih =>
    intro n d h
    cases n with
    | zero => exact List.mem_cons_self x xs
    | succ n => exact List.mem_cons_of_mem x (ih n d (by simpa using h))

namespace LPT

/-- An insertion probe on an all-empty table resolves at its start. -/
theorem probe_empty_ok (t : LPT V) (key : String)
    (hocc : occCount t.array = 0) (hlen : 0 < t.table_size) :
    t.linear_probe key true = .ok (hashString t.table_size key) := by
  have hh : hashString t.table_size key < t.table_size :=
    hashString_lt _ _ (by omega)
  have h0 : t.array.getD ((hashString t.table_size key + 0) % t.table_size)
      none = none := by
    rw [Nat.add_zero, Nat.mod_eq_of_lt hh]
    exact getD_none_of_occCount_zero t.array hocc _
  obtain ⟨e, he, hok⟩ :=
    probe_insert_hits t key t.table_size (hashString t.table_size key) 0 hh
      (by omega) h0
  unfold linear_probe
  rw [hok]
  have he0 : e = 0 := by omega
  rw [he0, Nat.add_zero, Nat.mod_eq_of_lt hh]

/-- Uniqueness of stored keys, from probe-reachability. -/
theorem uniq_of_reach (t : LPT V) (hre : Reach t) :
    ∀ j j' k v v', t.array.getD j none = some (k, v) →
      t.array.getD j' none = some (k, v') → j = j' := by
  intro j j' k v v' hj hj'
  have h1 := hre j (lt_of_getD_some _ _ _ hj) (k, v) hj
  have h2 := hre j' (lt_of_getD_some _ _ _ hj') (k, v') hj'
  simp only at h1 h2
  rw [h1] at h2
  exact (Except.ok.inj h2)

/-- A key whose insertion probe stops on an empty slot is stored nowhere
(in a probe-reachable table). -/
theorem absent_of_insert_none (t : LPT V) (key : String) (pos : Nat)
    (hre : Reach t) (hok : t.linear_probe key true = .ok pos)
    (hnone : t.array.getD pos none = none) :
    ∀ j v, t.array.getD j none = some (key, v) → False := by
  intro j v hj
  have hlook := hre j (lt_of_getD_some _ _ _ hj) (key, v) hj
  simp only at hlook
  have hins := probe_lookup_insert t key _ _ _ hlook
  unfold linear_probe at hok
  rw [hok] at hins
  have : pos = j := Except.ok.inj hins
  rw [← this] at hj
  rw [hj] at hnone
  exact Option.noConfusion hnone

/-- Probes depend only on the keys stored in each slot: tables of equal
capacity whose slots hold the same keys (values may differ) probe
identically. -/
theorem probe_congr_keys (t t' : LPT V)
    (hlen : t.array.length = t'.array.length)
    (hkeys : ∀ j, (t.array.getD j none).map Prod.fst =
      (t'.array.getD j none).map Prod.fst)
    (key : String) (ins : Bool) :
    ∀ fuel pos, t.probeAux key ins fuel pos = t'.probeAux key ins fuel pos := by
  have hts : t.table_size = t'.table_size := hlen
  intro fuel
  induction fuel with
  | zero => intro pos; rfl
  | succ n ih =>
    intro pos
    cases hg : t.array.getD pos none with
    | none =>
      have hg' : t'.array.getD pos none = none := by
        have := hkeys pos
        rw [hg] at this
        cases hx : t'.array.getD pos none with
        | none => rfl
        | some kv => rw [hx] at this; simp at this
      simp only [probeAux, hg, hg']
    | some kv =>
      obtain ⟨kv', hg', hk1⟩ : ∃ kv', t'.array.getD pos none = some kv' ∧
          kv'.1 = kv.1 := by
        have := hkeys pos
        rw [hg] at this
        cases hx : t'.array.getD pos none with
        | none => rw [hx] at this; simp at this
        | some kv' =>
          rw [hx] at this
          refine ⟨kv', rfl, ?_⟩
          simpa using this.symm
      simp only [probeAux, hg, hg']
      rw [hk1]
      by_cases hke : kv.1 = key
      · simp [hke]
      · simp only [hke, ite_false, if_neg]
        rw [hts]
        exact ih _

/-- Writing through a resolved insertion probe preserves the inner-table
invariant: a write into an empty stop slot (with the count bumped), or an
overwrite of the key's own slot (count kept). -/
theorem write_preserves_WF (t : LPT V) (key : String) (v : V) (pos : Nat)
    (hWF : WF t) (hok : t.linear_probe key true = .ok pos) :
    (t.array.getD pos none = none →
      WF { t with array := t.array.set pos (some (key, v)),
                  count := t.count + 1 }) ∧
    (∀ v', t.array.getD pos none = some (key, v') →
      WF { t with array := t.array.set pos (some (key, v)) }) := by
  obtain ⟨hacc, hre, hsz1, hsz2⟩ := hWF
  have hlen : 0 < t.table_size := by
    by_contra hc
    unfold linear_probe at hok
    have : t.table_size = 0 := by omega
    rw [this] at hok
    simp [probeAux] at hok
  have hposlt : pos < t.table_size := by
    unfold linear_probe at hok
    exact probe_ok_lt t key true _ _ _ (hashString_lt _ _ (by omega)) hok
  constructor
  · -- fresh slot
    intro hnone
    set t1 : LPT V := { t with array := t.array.set pos (some (key, v)), count := t.count + 1 } with ht1
    have ht1arr : t1.array = t.array.set pos (some (key, v)) := rfl
    have habs := absent_of_insert_none t key pos hre hok hnone
    refine ⟨?_, ?_, hsz1, hsz2⟩
    · show t.count + 1 = occCount t1.array
      rw [ht1arr, occCount_set_some_of_none _ _ _ hnone hposlt, hacc]
    · intro j hj kv hkv
      by_cases hjp : j = pos
      · have hkv' : kv = (key, v) := by
          have hi := hkv
          rw [hjp, ht1arr, getD_set_self _ _ hposlt] at hi
          exact (Option.some.inj hi).symm
        rw [hkv', hjp]
        have hfill := probe_insert_fill_self t t1 pos key v hnone hposlt
          ht1arr t.table_size (hashString t.table_size key)
          (by unfold linear_probe at hok; exact hok)
        show t1.probeAux key false t1.table_size
          (hashString t1.table_size key) = .ok pos
        rw [show t1.table_size = t.table_size from
          table_size_set t t1 pos _ ht1arr]
        exact hfill
      · obtain ⟨ka, va⟩ := kv
        have hjt : t.array.getD j none = some (ka, va) := by
          have hi := hkv
          rw [ht1arr, getD_set_ne _ _ _ (fun hc => hjp hc.symm)] at hi
          exact hi
        have hkne : key ≠ ka := by
          intro hc
          exact habs j va (by rw [hc]; exact hjt)
        have hlook := hre j (lt_of_getD_some _ _ _ hjt) (ka, va) hjt
        simp only at hlook
        have hfill := probe_lookup_fill t t1 pos key v hnone ht1arr ka hkne
          t.table_size (hashString t.table_size ka) j hlook
        show t1.probeAux (ka, va).1 false t1.table_size
          (hashString t1.table_size (ka, va).1) = .ok j
        rw [show t1.table_size = t.table_size from
          table_size_set t t1 pos _ ht1arr]
        exact hfill
  · -- overwrite of the key's own slot
    intro v' hsome
    set t1 : LPT V := { t with array := t.array.set pos (some (key, v)) }
      with ht1
    have ht1arr : t1.array = t.array.set pos (some (key, v)) := rfl
    have hts : t1.table_size = t.table_size := table_size_set t t1 pos _ ht1arr
    have hkeys : ∀ j, (t1.array.getD j none).map Prod.fst =
        (t.array.getD j none).map Prod.fst := by
      intro j
      by_cases hjp : j = pos
      · rw [hjp, ht1arr, getD_set_self _ _ hposlt, hsome]
        rfl
      · rw [ht1arr, getD_set_ne _ _ _ (fun hc => hjp hc.symm)]
    refine ⟨?_, ?_, hsz1, hsz2⟩
    · show t.count = occCount t1.array
      rw [ht1arr, occCount_set_some_of_some _ _ _ _ hsome, hacc]
    · intro j hj kv hkv
      have hcongr := probe_congr_keys t1 t (by rw [ht1arr, List.length_set])
        hkeys kv.1 false
      show t1.probeAux kv.1 false t1.table_size
        (hashString t1.table_size kv.1) = .ok j
      rw [hts, hcongr]
      by_cases hjp : j = pos
      · have hkv' : kv = (key, v) := by
          have hi := hkv
          rw [hjp, ht1arr, getD_set_self _ _ hposlt] at hi
          exact (Option.some.inj hi).symm
        rw [hkv', hjp]
        have := hre pos hposlt (key, v') hsome
        simp only at this ⊢
        unfold linear_probe at this
        exact this
      · have hjt : t.array.getD j none = some kv := by
          have hi := hkv
          rw [ht1arr, getD_set_ne _ _ _ (fun hc => hjp hc.symm)] at hi
          exact hi
        have := hre j (lt_of_getD_some _ _ _ hjt) kv hjt
        unfold linear_probe at this
        exact this

/-- Folding the `_rehash` re-insertion step over any entry list preserves the
inner-table invariant, the ladder, rung monotonicity, and (given adequate
fuel) a nonzero count. -/
theorem setFold_preserves (n : Nat)
    (hset : ∀ (t : LPT V) (key : String) (v : V), WF t →
      WF (opF n (.set t key v)).2 ∧
      (opF n (.set t key v)).2.sizes = t.sizes ∧
      t.size_index ≤ (opF n (.set t key v)).2.size_index ∧
      (2 * (t.sizes.length - t.size_index) + 1 ≤ n → 1 ≤ t.count →
        1 ≤ (opF n (.set t key v)).2.count)) :
    ∀ (l : List (String × V)) (acc : Except Err Unit × LPT V), WF acc.2 →
      WF (l.foldl (reinsertStep n) acc).2 ∧
      (l.foldl (reinsertStep n) acc).2.sizes = acc.2.sizes ∧
      acc.2.size_index ≤ (l.foldl (reinsertStep n) acc).2.size_index ∧
      (2 * (acc.2.sizes.length - acc.2.size_index) + 1 ≤ n →
        1 ≤ acc.2.count → 1 ≤ (l.foldl (reinsertStep n) acc).2.count) := by
  intro l
  induction l with
  | nil =>
    intro acc h
    exact ⟨h, rfl, Nat.le_refl _, fun _ hc => hc⟩
  | cons x l ih =>
    intro acc h
    rw [List.foldl_cons]
    obtain ⟨a1, a2⟩ := acc
    cases a1 with
    | error e =>
      have hstep : reinsertStep n (Except.error e, a2) x =
          (Except.error e, a2) := rfl
      rw [hstep]
      exact ih (Except.error e, a2) h
    | ok u =>
      cases u
      have hstep : reinsertStep n (Except.ok (), a2) x =
          opF n (.set a2 x.1 x.2) := rfl
      rw [hstep]
      obtain ⟨hW, hsz, hsi, hcnt⟩ := hset a2 x.1 x.2 h
      obtain ⟨hW', hsz', hsi', hcnt'⟩ := ih (opF n (.set a2 x.1 x.2)) hW
      refine ⟨hW', hsz'.trans hsz, Nat.le_trans hsi hsi', ?_⟩
      intro hb hc
      have hb0 : 2 * (a2.sizes.length - a2.size_index) + 1 ≤ n := hb
      have hc0 : 1 ≤ a2.count := hc
      have hb' : 2 * ((opF n (.set a2 x.1 x.2)).2.sizes.length -
          (opF n (.set a2 x.1 x.2)).2.size_index) + 1 ≤ n := by
        rw [hsz]
        omega
      exact hcnt' hb' (hcnt hb0 hc0)

/-- The inner table's fuelled `__setitem__`/`_rehash` preserve the invariant,
never touch the ladder, never lower the rung, and (with the fuel the rung
bound demands) keep — or make — the table nonempty. -/
theorem opF_preserves_WF : ∀ n : Nat,
    (∀ (t : LPT V) (key : String) (v : V), WF t →
      WF (opF n (.set t key v)).2 ∧
      (opF n (.set t key v)).2.sizes = t.sizes ∧
      t.size_index ≤ (opF n (.set t key v)).2.size_index ∧
      (2 * (t.sizes.length - t.size_index) + 1 ≤ n →
        (1 ≤ t.count ∨ ∃ pos, t.linear_probe key true = .ok pos ∧
          t.array.getD pos none = none) →
        1 ≤ (opF n (.set t key v)).2.count)) ∧
    (∀ (t : LPT V), WF t →
      WF (opF n (.rehash t)).2 ∧
      (opF n (.rehash t)).2.sizes = t.sizes ∧
      t.size_index ≤ (opF n (.rehash t)).2.size_index ∧
      (2 * (t.sizes.length - t.size_index) ≤ n → 1 ≤ t.count →
        1 ≤ (opF n (.rehash t)).2.count)) := by
  intro n
  induction n with
  | zero =>
    constructor
    · intro t key v h
      exact ⟨h, rfl, Nat.le_refl _, fun hb _ => by omega⟩
    · intro t h
      exact ⟨h, rfl, Nat.le_refl _, fun _ hc => hc⟩
  | succ n ih =>
    obtain ⟨ihset, ihreh⟩ := ih
    constructor
    · -- __setitem__ at fuel n + 1
      intro t key v hWF
      cases hpr : t.linear_probe key true with
      | error e =>
        have hred : opF (n + 1) (OpIn.set t key v) = (.error e, t) := by
          simp only [opF, hpr]
        rw [hred]
        refine ⟨hWF, rfl, Nat.le_refl _, ?_⟩
        intro _ hdis
        cases hdis with
        | inl hc => exact hc
        | inr hex =>
          obtain ⟨pos, hok, _⟩ := hex
          exact Except.noConfusion hok
      | ok pos =>
        have hslot := probe_ok_slot t key true t.table_size
          (hashString t.table_size key) pos
          (by unfold linear_probe at hpr; exact hpr)
        rcases hslot with ⟨hg, _⟩ | ⟨v', hg⟩
        · -- fresh slot: the count grows
          have hred : opF (n + 1) (OpIn.set t key v) =
              (if 2 * (t.count + 1) >
                  (t.array.set pos (some (key, v))).length then
                opF n (.rehash { t with
                  array := t.array.set pos (some (key, v)),
                  count := t.count + 1 })
              else (.ok (), { t with
                  array := t.array.set pos (some (key, v)),
                  count := t.count + 1 })) := by
            simp only [opF, hpr, hg, Option.isNone_none, if_true, table_size]
          rw [hred]
          have hWF1 := (write_preserves_WF t key v pos hWF hpr).1 hg
          by_cases hload : 2 * (t.count + 1) >
              (t.array.set pos (some (key, v))).length
          · rw [if_pos hload]
            obtain ⟨hW', hsz', hsi', hcnt'⟩ := ihreh _ hWF1
            refine ⟨hW', hsz', hsi', ?_⟩
            intro hb _
            refine hcnt' ?_ ?_
            · show 2 * (t.sizes.length - t.size_index) ≤ n
              omega
            · show 1 ≤ t.count + 1
              omega
          · rw [if_neg hload]
            refine ⟨hWF1, rfl, Nat.le_refl _, ?_⟩
            intro _ _
            show 1 ≤ t.count + 1
            omega
        · -- overwrite of the key's own slot: the count stands
          have hred : opF (n + 1) (OpIn.set t key v) =
              (if 2 * t.count >
                  (t.array.set pos (some (key, v))).length then
                opF n (.rehash { t with
                  array := t.array.set pos (some (key, v)) })
              else (.ok (), { t with
                  array := t.array.set pos (some (key, v)) })) := by
            simp only [opF, hpr, hg, Option.isNone_some, Bool.false_eq_true,
              if_false, Nat.add_zero, table_size]
          rw [hred]
          have hWF1 := (write_preserves_WF t key v pos hWF hpr).2 v' hg
          have hc1 : (1 ≤ t.count ∨
              ∃ p, (Except.ok pos : Except Err Nat) = Except.ok p ∧
                t.array.getD p none = none) → 1 ≤ t.count := by
            intro hdis
            cases hdis with
            | inl hc => exact hc
            | inr hex =>
              obtain ⟨p2, hok2, hn2⟩ := hex
              have hpp : pos = p2 := Except.ok.inj hok2
              rw [← hpp, hg] at hn2
              exact Option.noConfusion hn2
          by_cases hload : 2 * t.count >
              (t.array.set pos (some (key, v))).length
          · rw [if_pos hload]
            obtain ⟨hW', hsz', hsi', hcnt'⟩ := ihreh _ hWF1
            refine ⟨hW', hsz', hsi', ?_⟩
            intro hb hdis
            refine hcnt' ?_ ?_
            · show 2 * (t.sizes.length - t.size_index) ≤ n
              omega
            · show 1 ≤ t.count
              exact hc1 hdis
          · rw [if_neg hload]
            refine ⟨hWF1, rfl, Nat.le_refl _, ?_⟩
            intro _ hdis
            show 1 ≤ t.count
            exact hc1 hdis
    · -- _rehash at fuel n + 1
      intro t hWF
      by_cases hsat : t.sizes.length ≤ t.size_index + 1
      · have hred : opF (n + 1) (OpIn.rehash t) = (.ok (), t) := by
          simp only [opF]
          rw [if_pos hsat]
        rw [hred]
        exact ⟨hWF, rfl, Nat.le_refl _, fun _ hc => hc⟩
      · have hred : opF (n + 1) (OpIn.rehash t) =
            (t.array.filterMap id).foldl (reinsertStep n)
              (.ok (), rebuildBase t) := by
          simp only [opF]
          rw [if_neg hsat]
          rfl
        rw [hred]
        have hWF0 : WF (rebuildBase t) := by
          refine ⟨?_, ?_, hWF.2.2.1, hWF.2.2.2⟩
          · show (0 : Nat) = occCount (List.replicate
              (t.sizes.getD (t.size_index + 1) 0) (none : Option (String × V)))
            rw [occCount_replicate]
          · intro j _ kv hkv
            have : (none : Option (String × V)) = some kv := by
              rw [← getD_replicate (t.sizes.getD (t.size_index + 1) 0) j]
              exact hkv
            exact Option.noConfusion this
        have hset' : ∀ (t' : LPT V) (key : String) (v : V), WF t' →
            WF (opF n (.set t' key v)).2 ∧
            (opF n (.set t' key v)).2.sizes = t'.sizes ∧
            t'.size_index ≤ (opF n (.set t' key v)).2.size_index ∧
            (2 * (t'.sizes.length - t'.size_index) + 1 ≤ n → 1 ≤ t'.count →
              1 ≤ (opF n (.set t' key v)).2.count) := by
          intro t' key v h'
          obtain ⟨hA, hB, hC, hD⟩ := ihset t' key v h'
          exact ⟨hA, hB, hC, fun hb hc => hD hb (.inl hc)⟩
        obtain ⟨hWA, hszA, hsiA, _⟩ :=
          setFold_preserves n hset' (t.array.filterMap id)
            (.ok (), rebuildBase t) hWF0
        refine ⟨hWA, ?_, ?_, ?_⟩
        · exact hszA.trans (show (rebuildBase t).sizes = t.sizes from rfl)
        · refine Nat.le_trans ?_ hsiA
          show t.size_index ≤ t.size_index + 1
          omega
        · -- fuel adequacy keeps the rebuilt table nonempty
          intro hb hc
          have hocc1 : 1 ≤ occCount t.array := by
            rw [← hWF.1]
            exact hc
          cases hfm : t.array.filterMap id with
          | nil =>
            rw [occCount, hfm] at hocc1
            simp at hocc1
          | cons x rest =>
            rw [List.foldl_cons]
            have hstep : reinsertStep n
                ((.ok (), rebuildBase t) : Except Err Unit × LPT V) x =
                opF n (.set (rebuildBase t) x.1 x.2) := rfl
            rw [hstep]
            have hz1 : 1 ≤ t.sizes.getD (t.size_index + 1) 0 :=
              hWF.2.2.2 _ (getD_mem_of_lt t.sizes (t.size_index + 1) 0
                (by omega))
            have hprobe0 : (rebuildBase t).linear_probe x.1 true =
                .ok (hashString (t.sizes.getD (t.size_index + 1) 0) x.1) := by
              have := probe_empty_ok (rebuildBase t) x.1
                (occCount_replicate _)
                (by show 0 < (List.replicate
                    (t.sizes.getD (t.size_index + 1) 0)
                    (none : Option (String × V))).length
                    rw [List.length_replicate]
                    omega)
              rw [this]
              show Except.ok (hashString (List.replicate
                (t.sizes.getD (t.size_index + 1) 0)
                (none : Option (String × V))).length x.1) = _
              rw [List.length_replicate]
            obtain ⟨hW1, hsz1, hsi1, hcnt1⟩ :=
              ihset (rebuildBase t) x.1 x.2 hWF0
            have h1 : 1 ≤ (opF n (.set (rebuildBase t) x.1 x.2)).2.count := by
              refine hcnt1 ?_ (.inr ⟨_, hprobe0, getD_replicate _ _⟩)
              show 2 * (t.sizes.length - (t.size_index + 1)) + 1 ≤ n
              omega
            obtain ⟨_, hszR, _, hcntR⟩ :=
              setFold_preserves n hset' rest
                (opF n (.set (rebuildBase t) x.1 x.2)) hW1
            refine hcntR ?_ h1
            have hsz1' : (opF n (.set (rebuildBase t) x.1 x.2)).2.sizes =
                t.sizes := hsz1
            have hsi1' : t.size_index + 1 ≤
                (opF n (.set (rebuildBase t) x.1 x.2)).2.size_index := hsi1
            rw [hsz1']
            omega

end LPT

/-- C10, witness: on the freshly built `[5, 13]`-ladder table and a fresh
inner table, both hashes of sample keys (including the empty string via
`hash2`) land inside the tables. -/
theorem c10_hash_witness :
    (∀ r ∈ c1_s0.sizes, 2 ≤ r) ∧ c1_s0.table_size ∈ c1_s0.sizes ∧
    c1_s0.table_size - 1 ≠ 0 ∧ (LPT.make [5, 13] : LPT Nat).table_size - 1 ≠ 0 ∧
    c1_s0.hash1 "hello" < c1_s0.table_size ∧
    DKT.hash2 c1_s0 (LPT.make [5, 13] : LPT Nat) "" <
      (LPT.make [5, 13] : LPT Nat).table_size := by
  have h := c10_hash1_hash2_total_and_in_range c1_s0
    (LPT.make [5, 13] : LPT Nat) "hello" "" (by decide) (by decide)
    (by decide) (by decide)
  exact ⟨by decide, by decide, h.1, h.2.1, h.2.2.1, h.2.2.2⟩

namespace LPT

/-- The walk potential is at most the square of the capacity. -/
theorem phi_le (t : LPT V) : phi t ≤ t.table_size * t.table_size := by
  unfold phi
  have hb : ∀ j ∈ Finset.range t.table_size,
      slotCost t.table_size t.array j ≤ t.table_size := by
    intro j hj
    have hts : 0 < t.table_size :=
      Nat.lt_of_le_of_lt (Nat.zero_le j) (Finset.mem_range.mp hj)
    unfold slotCost
    cases hcase : t.array.getD j none with
    | none => exact Nat.zero_le _
    | some kv =>
      show cycDist t.table_size (hashString t.table_size kv.1) j ≤
        t.table_size
      unfold cycDist
      exact Nat.le_of_lt (Nat.mod_lt _ hts)
  calc (∑ j ∈ Finset.range t.table_size, slotCost t.table_size t.array j)
      ≤ ∑ _j ∈ Finset.range t.table_size, t.table_size :=
        Finset.sum_le_sum hb
    _ = t.table_size * t.table_size := by
        rw [Finset.sum_const, Finset.card_range, smul_eq_mul]

/-- A resolved lookup's stop slot holds the probed key. -/
theorem probe_lookup_slot (t : LPT V) (key : String) (spos : Nat)
    (h : t.linear_probe key false = .ok spos) :
    ∃ v, t.array.getD spos none = some (key, v) := by
  have hps := probe_ok_slot t key false t.table_size
    (hashString t.table_size key) spos (by unfold linear_probe at h; exact h)
  rcases hps with ⟨_, hft⟩ | ⟨v, hv⟩
  · exact Bool.noConfusion hft
  · exact ⟨v, hv⟩

/-- After clearing one occupied slot of a well-formed inner table, the repair
walk at `__delitem__`'s fuel budget succeeds and restores the invariant,
keeping the ladder and the decremented count. -/
theorem del_walk_WF (st st1 : LPT V) (k2 : String) (v2 : V) (spos : Nat)
    (hWF : WF st) (hsl : st.array.getD spos none = some (k2, v2))
    (harr : st1.array = st.array.set spos none)
    (hcnt : st1.count = st.count - 1)
    (hsz1 : st1.sizes = st.sizes) :
    (DKT.walkAux (st1.table_size * st1.table_size * (st1.table_size + 2)
        + st1.table_size + 2) st1 ((spos + 1) % st1.table_size)).1 =
      .ok () ∧
    WF (DKT.walkAux (st1.table_size * st1.table_size * (st1.table_size + 2)
        + st1.table_size + 2) st1 ((spos + 1) % st1.table_size)).2 ∧
    (DKT.walkAux (st1.table_size * st1.table_size * (st1.table_size + 2)
        + st1.table_size + 2) st1 ((spos + 1) % st1.table_size)).2.count =
      st.count - 1 := by
  obtain ⟨hacc, hre, hs1, hs2⟩ := hWF
  have hspos : spos < st.array.length := lt_of_getD_some _ _ _ hsl
  have hts1 : st1.table_size = st.table_size := table_size_set st st1 spos none harr
  have hocc1 : occCount st1.array + 1 = occCount st.array := by
    rw [harr]
    exact occCount_set_none_of_some _ _ _ hsl
  have hlelen := occCount_le_length st.array
  have hlen1 : st1.array.length = st.array.length := by
    rw [harr, List.length_set]
  have hcnt1 : st1.count = occCount st1.array := by omega
  have hclA : st1.count < st1.array.length := by omega
  have hcltlen : st1.count < st1.table_size := hclA
  have h0ts : 0 < st1.table_size := by
    show 0 < st1.array.length
    omega
  have hstart : (spos + 1) % st1.table_size < st1.table_size :=
    Nat.mod_lt _ h0ts
  have hinv : WalkInv st1 ((spos + 1) % st1.table_size) := by
    refine ⟨hcnt1, hcltlen, ?_, ?_⟩
    · intro j j' k v v' hj hj'
      have hjs : j ≠ spos := by
        intro hc
        rw [hc, harr, getD_set_self _ _ hspos] at hj
        exact Option.noConfusion hj
      have hjs' : j' ≠ spos := by
        intro hc
        rw [hc, harr, getD_set_self _ _ hspos] at hj'
        exact Option.noConfusion hj'
      rw [harr, getD_set_ne _ _ _ (fun hc => hjs hc.symm)] at hj
      rw [harr, getD_set_ne _ _ _ (fun hc => hjs' hc.symm)] at hj'
      exact uniq_of_reach st hre j j' k v v' hj hj'
    · intro j hj kv hkv
      have hjs : j ≠ spos := by
        intro hc
        rw [hc, harr, getD_set_self _ _ hspos] at hkv
        exact Option.noConfusion hkv
      have hjt : st.array.getD j none = some kv := by
        rw [harr, getD_set_ne _ _ _ (fun hc => hjs hc.symm)] at hkv
        exact hkv
      have hlook : st.linear_probe kv.1 false = .ok j :=
        hre j (lt_of_getD_some _ _ _ hjt) kv hjt
      have hdi := probe_lookup_clear st st1 spos (k2, v2) hsl harr kv.1
        st.table_size (Nat.le_refl _) (hashString st.table_size kv.1) j hjs
        (by unfold linear_probe at hlook; exact hlook)
      rcases hdi with hl | hr
      · left
        show st1.probeAux kv.1 false st1.table_size
          (hashString st1.table_size kv.1) = .ok j
        rw [hts1]
        exact hl
      · right
        rw [hts1]
        exact hr
  obtain ⟨q, hqlt, hqnone⟩ :=
    exists_none_of_occCount_lt st1.array (by omega)
  have hqts : q < st1.table_size := hqlt
  have hadd : (((spos + 1) % st1.table_size) +
      cycDist st1.table_size ((spos + 1) % st1.table_size) q) %
        st1.table_size = q :=
    add_cycDist_mod st1.table_size _ q hstart hqts
  have hdlt : cycDist st1.table_size ((spos + 1) % st1.table_size) q <
      st1.table_size := by
    unfold cycDist
    exact Nat.mod_lt _ h0ts
  have hphi := phi_le st1
  have hmul : phi st1 * (st1.table_size + 1) ≤
      st1.table_size * st1.table_size * (st1.table_size + 1) :=
    Nat.mul_le_mul_right _ hphi
  have hexp : st1.table_size * st1.table_size * (st1.table_size + 2) =
      st1.table_size * st1.table_size * (st1.table_size + 1) +
      st1.table_size * st1.table_size := by ring
  have hfuel : phi st1 * (st1.table_size + 1) +
      cycDist st1.table_size ((spos + 1) % st1.table_size) q + 1 ≤
      st1.table_size * st1.table_size * (st1.table_size + 2)
        + st1.table_size + 2 := by omega
  obtain ⟨hok, hwsz, _, hwcnt, _, hwacc, hwre⟩ :=
    walk_completes (st1.table_size * st1.table_size * (st1.table_size + 2)
        + st1.table_size + 2) st1 ((spos + 1) % st1.table_size)
      (cycDist st1.table_size ((spos + 1) % st1.table_size) q) hinv hstart
      hdlt (by rw [hadd]; exact hqnone) hfuel
  refine ⟨hok, ⟨hwacc, hwre, ?_, ?_⟩, ?_⟩
  · rw [hwsz, hsz1]
    exact hs1
  · rw [hwsz, hsz1]
    exact hs2
  · rw [hwcnt]
    exact hcnt

/-- A freshly allocated inner table is well-formed and nonempty-capacity
(given a nonempty positive ladder). -/
theorem make_WF (sizes : List Nat) (h1 : sizes ≠ []) (h2 : ∀ r ∈ sizes, 1 ≤ r) :
    (LPT.make sizes : LPT V).WF ∧ 0 < (LPT.make sizes : LPT V).table_size := by
  have hlen : 0 < sizes.length := List.length_pos.mpr h1
  have hz : 1 ≤ sizes.getD 0 0 := h2 _ (getD_mem_of_lt sizes 0 0 hlen)
  constructor
  · refine ⟨?_, ?_, h1, h2⟩
    · show (0 : Nat) =
        occCount (List.replicate (sizes.getD 0 0) (none : Option (String × V)))
      rw [occCount_replicate]
    · intro j _ kv hkv
      have hcontra : (none : Option (String × V)) = some kv := by
        rw [← getD_replicate (sizes.getD 0 0) j]
        exact hkv
      exact Option.noConfusion hcontra
  · show 0 <
      (List.replicate (sizes.getD 0 0) (none : Option (String × V))).length
    rw [List.length_replicate]
    omega

end LPT

namespace DKT

/-- An outer probe that raises leaves the state untouched. -/
theorem probeO_error (s : DKT V) (k1 k2 : String) (ins : Bool) :
    ∀ fuel pos e, (s.probeAux k1 k2 ins fuel pos).1 = .error e →
      (s.probeAux k1 k2 ins fuel pos).2 = s := by
  intro fuel
  induction fuel with
  | zero => intro pos e _; rfl
  | succ n ih =>
    intro pos e h
    cases hg : s.table.getD pos none with
    | none =>
      cases ins with
      | true =>
        simp only [probeAux, hg] at h
        simp at h
      | false =>
        simp only [probeAux, hg]
        simp
    | some kv =>
      obtain ⟨k, st⟩ := kv
      simp only [probeAux, hg] at h ⊢
      by_cases hk : k = k1
      · rw [if_pos hk] at h ⊢
        cases hip : st.linear_probe k2 ins with
        | error e2 => simp only [hip]
        | ok spos2 => simp only [hip] at h; simp at h
      · rw [if_neg hk] at h ⊢
        exact ih _ e h

/-- A resolved outer lookup names a slot holding `key1` whose inner table
resolves `key2` at the returned inner position. -/
theorem probeO_lookup_ok (s : DKT V) (k1 k2 : String) :
    ∀ fuel pos tpos spos,
      (s.probeAux k1 k2 false fuel pos).1 = .ok (tpos, spos) →
      ∃ st, s.table.getD tpos none = some (k1, st) ∧
        st.linear_probe k2 false = .ok spos := by
  intro fuel
  induction fuel with
  | zero => intro pos tpos spos h; simp [probeAux] at h
  | succ n ih =>
    intro pos tpos spos h
    cases hg : s.table.getD pos none with
    | none =>
      simp only [probeAux, hg] at h
      simp at h
    | some kv =>
      obtain ⟨k, st⟩ := kv
      simp only [probeAux, hg] at h
      by_cases hk : k = k1
      · rw [if_pos hk] at h
        cases hip : st.linear_probe k2 false with
        | error e2 => simp only [hip] at h; simp at h
        | ok spos2 =>
          simp only [hip] at h
          have h2 : (pos, spos2) = (tpos, spos) := by simpa using h
          cases h2
          rw [hk] at hg
          exact ⟨st, hg, hip⟩
      · rw [if_neg hk] at h
        exact ih _ _ _ h

/-- A resolved outer insertion probe either allocated a fresh inner table at
an empty slot (resolving at the raw inner hash) or found `key1`'s slot and
resolved inside its inner table, leaving the state untouched. -/
theorem probeO_insert_ok (s : DKT V) (k1 k2 : String) :
    ∀ fuel pos tpos spos s1, pos < s.table.length →
      s.probeAux k1 k2 true fuel pos = (.ok (tpos, spos), s1) →
      (s.table.getD tpos none = none ∧ tpos < s.table.length ∧
        spos = hashString (LPT.make s.internal_sizes : LPT V).table_size k2 ∧
        s1 = { s with
          table := s.table.set tpos (some (k1, LPT.make s.internal_sizes)) }) ∨
      (s1 = s ∧ ∃ st, s.table.getD tpos none = some (k1, st) ∧
        st.linear_probe k2 true = .ok spos) := by
  intro fuel
  induction fuel with
  | zero =>
    intro pos tpos spos s1 _ h
    simp [probeAux] at h
  | succ n ih =>
    intro pos tpos spos s1 hp h
    cases hg : s.table.getD pos none with
    | none =>
      simp only [probeAux, hg] at h
      rw [if_true] at h
      rw [Prod.mk.injEq] at h
      obtain ⟨h1, h2⟩ := h
      have h3 : (pos, hashString
          (LPT.make s.internal_sizes : LPT V).table_size k2) =
          (tpos, spos) := by simpa using h1
      cases h3
      left
      exact ⟨hg, hp, rfl, h2.symm⟩
    | some kv =>
      obtain ⟨k, st⟩ := kv
      simp only [probeAux, hg] at h
      by_cases hk : k = k1
      · rw [if_pos hk] at h
        cases hip : st.linear_probe k2 true with
        | error e2 =>
          simp only [hip] at h
          rw [Prod.mk.injEq] at h
          exact absurd h.1 (by simp)
        | ok spos2 =>
          simp only [hip] at h
          rw [Prod.mk.injEq] at h
          obtain ⟨h1, h2⟩ := h
          have h3 : (pos, spos2) = (tpos, spos) := by simpa using h1
          cases h3
          right
          rw [hk] at hg
          exact ⟨h2.symm, st, hg, hip⟩
      · rw [if_neg hk] at h
        refine ih ((pos + 1) % s.table_size) tpos spos s1 ?_ h
        have h0 : 0 < s.table.length := by omega
        exact Nat.mod_lt _ h0

/-- The end-of-`__setitem__` aliased inner grow preserves the outer
invariant. -/
theorem innerCheck_WF (s : DKT V) (tpos : Nat) (h : WF s) :
    WF (innerCheck s tpos) := by
  obtain ⟨hlen, hacc, hslots, hsz, hi1, hi2⟩ := h
  cases hg : s.table.getD tpos none with
  | none =>
    have hred : innerCheck s tpos = s := by simp only [innerCheck, hg]
    rw [hred]
    exact ⟨hlen, hacc, hslots, hsz, hi1, hi2⟩
  | some e =>
    obtain ⟨k, st⟩ := e
    by_cases hl : 2 * st.count > st.table_size
    · have hred : innerCheck s tpos =
          { s with table := s.table.set tpos (some (k, (st.rehash).2)) } := by
        simp only [innerCheck, hg]
        rw [if_pos hl]
      rw [hred]
      have htpos : tpos < s.table.length := lt_of_getD_some _ _ _ hg
      obtain ⟨hstWF, hstc⟩ := hslots tpos htpos (k, st) hg
      obtain ⟨hrWF, hrsz, hrsi, hrcnt⟩ :=
        (LPT.opF_preserves_WF (2 * st.sizes.length + 8)).2 st hstWF
      refine ⟨?_, ?_, ?_, hsz, hi1, hi2⟩
      · show 1 ≤ (s.table.set tpos (some (k, (st.rehash).2))).length
        rw [List.length_set]
        exact hlen
      · show s.element_count =
          occCount (s.table.set tpos (some (k, (st.rehash).2)))
        rw [occCount_set_some_of_some _ _ _ _ hg]
        exact hacc
      · intro j hj e' he'
        by_cases hjt : j = tpos
        · subst hjt
          rw [getD_set_self _ _ htpos] at he'
          cases Option.some.inj he'
          refine ⟨hrWF, ?_⟩
          exact hrcnt (by omega) hstc
        · rw [getD_set_ne _ _ _ (fun hc => hjt hc.symm)] at he'
          refine hslots j ?_ e' he'
          rw [List.length_set] at hj
          exact hj
    · have hred : innerCheck s tpos = s := by
        simp only [innerCheck, hg]
        rw [if_neg hl]
      rw [hred]
      exact ⟨hlen, hacc, hslots, hsz, hi1, hi2⟩

/-- `__delitem__` preserves the outer invariant. -/
theorem delitem_preserves_WF (s : DKT V) (k1 k2 : String) (h : WF s) :
    WF (delitem s k1 k2).2 := by
  obtain ⟨hlen, hacc, hslots, hsz, hi1, hi2⟩ := h
  rcases hpr : (s.linear_probe k1 k2 false).1 with e | ⟨tpos, spos⟩
  · have hred : delitem s k1 k2 = (.error e, s) := by
      simp only [delitem, hpr]
    rw [hred]
    exact ⟨hlen, hacc, hslots, hsz, hi1, hi2⟩
  · obtain ⟨st', hg', hip⟩ := probeO_lookup_ok s k1 k2 s.table_size
      (s.hash1 k1) tpos spos hpr
    have htpos : tpos < s.table.length := lt_of_getD_some _ _ _ hg'
    obtain ⟨hstWF, hstc⟩ := hslots tpos htpos (k1, st') hg'
    obtain ⟨v2, hsl⟩ := LPT.probe_lookup_slot st' k2 spos hip
    by_cases hz : st'.count - 1 = 0
    · have hred : delitem s k1 k2 = (.ok (), { s with
          table := s.table.set tpos none,
          element_count := s.element_count - 1 }) := by
        simp only [delitem, hpr, hg']
        rw [if_pos hz]
      rw [hred]
      refine ⟨?_, ?_, ?_, hsz, hi1, hi2⟩
      · show 1 ≤ (s.table.set tpos none).length
        rw [List.length_set]
        exact hlen
      · show s.element_count - 1 = occCount (s.table.set tpos none)
        have h2 := occCount_set_none_of_some s.table tpos (k1, st') hg'
        omega
      · intro j hj e' he'
        by_cases hjt : j = tpos
        · subst hjt
          rw [getD_set_self _ _ htpos] at he'
          exact Option.noConfusion he'
        · rw [getD_set_ne _ _ _ (fun hc => hjt hc.symm)] at he'
          refine hslots j ?_ e' he'
          rw [List.length_set] at hj
          exact hj
    · obtain ⟨hok, hwWF, hwcnt⟩ := LPT.del_walk_WF st'
        ({ st' with array := st'.array.set spos none, count := st'.count - 1 })
        k2 v2 spos hstWF hsl rfl rfl rfl
      rcases hwk : DKT.walkAux
          (({ st' with array := st'.array.set spos none, count := st'.count - 1 } : LPT V).table_size *
            ({ st' with array := st'.array.set spos none, count := st'.count - 1 } : LPT V).table_size *
            (({ st' with array := st'.array.set spos none, count := st'.count - 1 } : LPT V).table_size + 2) +
            ({ st' with array := st'.array.set spos none, count := st'.count - 1 } : LPT V).table_size + 2)
          ({ st' with array := st'.array.set spos none, count := st'.count - 1 })
          ((spos + 1) % ({ st' with array := st'.array.set spos none, count := st'.count - 1 } : LPT V).table_size)
        with ⟨r, st2⟩
      rw [hwk] at hok hwWF hwcnt
      have hr : r = Except.ok () := hok
      subst hr
      have hred : delitem s k1 k2 = (.ok (), { s with
          table := s.table.set tpos (some (k1, st2)) }) := by
        simp only [delitem, hpr, hg']
        rw [if_neg hz]
        simp only [hwk]
      rw [hred]
      refine ⟨?_, ?_, ?_, hsz, hi1, hi2⟩
      · show 1 ≤ (s.table.set tpos (some (k1, st2))).length
        rw [List.length_set]
        exact hlen
      · show s.element_count = occCount (s.table.set tpos (some (k1, st2)))
        rw [occCount_set_some_of_some _ _ _ _ hg']
        exact hacc
      · intro j hj e' he'
        by_cases hjt : j = tpos
        · subst hjt
          rw [getD_set_self _ _ htpos] at he'
          cases Option.some.inj he'
          refine ⟨hwWF, ?_⟩
          show 1 ≤ st2.count
          rw [hwcnt]
          omega
        · rw [getD_set_ne _ _ _ (fun hc => hjt hc.symm)] at he'
          refine hslots j ?_ e' he'
          rw [List.length_set] at hj
          exact hj

/-- Folding the outer re-insertion of one inner table's pairs preserves the
outer invariant. -/
theorem setFoldO_preserves (n : Nat)
    (hset : ∀ (s : DKT V) (k1 k2 : String) (v : V), WF s →
      WF (opF n (.set s k1 k2 v)).2) (k1 : String) :
    ∀ (l : List (String × V)) (acc : Except Err Unit × DKT V), WF acc.2 →
      WF (l.foldl (reinsertStepO n k1) acc).2 := by
  intro l
  induction l with
  | nil => intro acc h; exact h
  | cons x l ih =>
    intro acc h
    rw [List.foldl_cons]
    obtain ⟨a1, a2⟩ := acc
    cases a1 with
    | error e =>
      have hstep : reinsertStepO n k1 (Except.error e, a2) x =
          (Except.error e, a2) := rfl
      rw [hstep]
      exact ih _ h
    | ok u =>
      cases u
      have hstep : reinsertStepO n k1 (Except.ok (), a2) x =
          opF n (.set a2 k1 x.1 x.2) := rfl
      rw [hstep]
      exact ih _ (hset a2 k1 x.1 x.2 h)

/-- Folding the outer re-insertion over the stored entries preserves the
outer invariant. -/
theorem entryFoldO_preserves (n : Nat)
    (hset : ∀ (s : DKT V) (k1 k2 : String) (v : V), WF s →
      WF (opF n (.set s k1 k2 v)).2) :
    ∀ (l : List (String × LPT V)) (acc : Except Err Unit × DKT V), WF acc.2 →
      WF (l.foldl (entryStepO n) acc).2 := by
  intro l
  induction l with
  | nil => intro acc h; exact h
  | cons x l ih =>
    intro acc h
    rw [List.foldl_cons]
    obtain ⟨a1, a2⟩ := acc
    cases a1 with
    | error e =>
      have hstep : entryStepO n (Except.error e, a2) x =
          (Except.error e, a2) := rfl
      rw [hstep]
      exact ih _ h
    | ok u =>
      cases u
      have hstep : entryStepO n (Except.ok (), a2) x =
          (x.2.array.filterMap id).foldl (reinsertStepO n x.1)
            (Except.ok (), a2) := rfl
      rw [hstep]
      exact ih _ (setFoldO_preserves n hset x.1 (x.2.array.filterMap id)
        (Except.ok (), a2) h)

/-- The tail of `__setitem__` after the write-back: the optional outer grow
followed by the aliased inner grow preserves the outer invariant. -/
theorem set_tail_WF (n : Nat)
    (hreh : ∀ (s : DKT V), WF s → WF (opF n (.rehash s)).2)
    (s2 : DKT V) (tpos : Nat) (hWF2 : WF s2) :
    WF ((if 2 * s2.element_count > s2.table_size then
        match opF n (.rehash s2) with
        | (.error e, s3) => ((.error e : Except Err Unit), s3)
        | (.ok (), s3) =>
          if s2.size_index + 1 < s2.sizes.length then
            ((.ok () : Except Err Unit), s3)
          else (.ok (), innerCheck s3 tpos)
      else (.ok (), innerCheck s2 tpos)) : Except Err Unit × DKT V).2 := by
  by_cases hload : 2 * s2.element_count > s2.table_size
  · rw [if_pos hload]
    rcases hre : opF n (.rehash s2) with ⟨r3, s3⟩
    have h3 : WF s3 := by
      have hx := hreh s2 hWF2
      rw [hre] at hx
      exact hx
    cases r3 with
    | error e => simp only [hre]; exact h3
    | ok u =>
      cases u
      simp only [hre]
      by_cases hsi : s2.size_index + 1 < s2.sizes.length
      · rw [if_pos hsi]
        exact h3
      · rw [if_neg hsi]
        exact innerCheck_WF s3 tpos h3
  · rw [if_neg hload]
    exact innerCheck_WF s2 tpos hWF2

/-- The outer `__setitem__` and `_rehash` preserve the outer invariant at
every fuel. -/
theorem opFO_preserves_WF : ∀ n : Nat,
    (∀ (s : DKT V) (k1 k2 : String) (v : V), WF s →
      WF (opF n (.set s k1 k2 v)).2) ∧
    (∀ (s : DKT V), WF s → WF (opF n (.rehash s)).2) := by
  intro n
  induction n with
  | zero => exact ⟨fun s k1 k2 v h => h, fun s h => h⟩
  | succ n ih =>
    obtain ⟨ihset, ihreh⟩ := ih
    constructor
    · -- __setitem__ at fuel n + 1
      intro s k1 k2 v hWF
      rcases hpr : s.linear_probe k1 k2 true with ⟨r, s1⟩
      cases r with
      | error e =>
        have hs1 : s1 = s := by
          have h1 : (s.probeAux k1 k2 true s.table_size (s.hash1 k1)).1 =
              .error e := by
            show (s.linear_probe k1 k2 true).1 = .error e
            rw [hpr]
          have h2 := probeO_error s k1 k2 true s.table_size (s.hash1 k1) e h1
          have h4 : (s.linear_probe k1 k2 true).2 = s1 := by rw [hpr]
          rw [← h4]
          exact h2
        have hred : opF (n + 1) (OpIn.set s k1 k2 v) = (.error e, s1) := by
          simp only [opF, hpr]
        rw [hred]
        show WF s1
        rw [hs1]
        exact hWF
      | ok p =>
        obtain ⟨tpos, spos⟩ := p
        have hplt : s.hash1 k1 < s.table.length :=
          hashString_lt _ _ hWF.1
        have hpr' : s.probeAux k1 k2 true s.table_size (s.hash1 k1) =
            (.ok (tpos, spos), s1) := hpr
        obtain ⟨hi1, hi2⟩ := hWF.2.2.2.2
        rcases probeO_insert_ok s k1 k2 s.table_size (s.hash1 k1) tpos spos s1
            hplt hpr' with ⟨hgN, htlt, hsposEq, hs1⟩ | ⟨hs1, st, hg, hips⟩
        · -- fresh outer slot: a new inner table was allocated and written
          subst hs1
          subst hsposEq
          obtain ⟨hmWF, hmts⟩ :=
            LPT.make_WF (V := V) s.internal_sizes hi1 hi2
          have hget : (s.table.set tpos
              (some (k1, LPT.make s.internal_sizes))).getD tpos none =
              some (k1, LPT.make s.internal_sizes) :=
            getD_set_self s.table tpos htlt _
          have hie : (LPT.make s.internal_sizes : LPT V).is_empty = true := rfl
          have hpmake : (LPT.make s.internal_sizes : LPT V).linear_probe k2
              true = .ok (hashString
                (LPT.make s.internal_sizes : LPT V).table_size k2) :=
            LPT.probe_empty_ok _ k2 (occCount_replicate _) hmts
          have hmnone : (LPT.make s.internal_sizes : LPT V).array.getD
              (hashString (LPT.make s.internal_sizes : LPT V).table_size k2)
              none = none := getD_replicate _ _
          have hstWF := (LPT.write_preserves_WF (LPT.make s.internal_sizes) k2
            v _ hmWF hpmake).1 hmnone
          simp only [opF, hpr, hget, hie, if_true]
          refine set_tail_WF n ihreh _ tpos ?_
          refine ⟨?_, ?_, ?_, hWF.2.2.2.1, hi1, hi2⟩
          · show 1 ≤ ((s.table.set tpos
                (some (k1, LPT.make s.internal_sizes))).set tpos _).length
            rw [List.length_set, List.length_set]
            exact hWF.1
          · show s.element_count + 1 = occCount _
            rw [occCount_set_some_of_some _ _ _ _ hget,
              occCount_set_some_of_none _ _ _ hgN htlt]
            rw [hWF.2.1]
          · intro j hj e' he'
            by_cases hjt : j = tpos
            · subst hjt
              rw [getD_set_self _ _ (by rw [List.length_set]; exact htlt)]
                at he'
              cases Option.some.inj he'
              refine ⟨hstWF, ?_⟩
              show 1 ≤ (LPT.make s.internal_sizes : LPT V).count + 1
              omega
            · rw [getD_set_ne _ _ _ (fun hc => hjt hc.symm),
                getD_set_ne _ _ _ (fun hc => hjt hc.symm)] at he'
              refine hWF.2.2.1 j ?_ e' he'
              rw [List.length_set, List.length_set] at hj
              exact hj
        · -- existing outer slot for key1: write into its inner table
          subst s1
          have htlt : tpos < s.table.length := lt_of_getD_some _ _ _ hg
          obtain ⟨hstWF, hstc⟩ := hWF.2.2.1 tpos htlt (k1, st) hg
          have hstc' : 1 ≤ st.count := hstc
          have hie : st.is_empty = false := by
            unfold LPT.is_empty
            simp only [decide_eq_false_iff_not]
            omega
          rcases LPT.probe_ok_slot st k2 true st.table_size
              (hashString st.table_size k2) spos
              (by unfold LPT.linear_probe at hips; exact hips) with
            ⟨hsN, _⟩ | ⟨v', hsS⟩
          · -- empty inner slot: insert, inner count grows
            have hstWF1 := (LPT.write_preserves_WF st k2 v spos hstWF hips).1
              hsN
            simp only [opF, hpr, hg, hie, Bool.false_eq_true, if_false, hsN,
              Option.isNone_none, if_true]
            refine set_tail_WF n ihreh _ tpos ?_
            refine ⟨?_, ?_, ?_, hWF.2.2.2.1, hi1, hi2⟩
            · show 1 ≤ (s.table.set tpos _).length
              rw [List.length_set]
              exact hWF.1
            · show s.element_count + 0 = occCount _
              rw [occCount_set_some_of_some _ _ _ _ hg, Nat.add_zero]
              exact hWF.2.1
            · intro j hj e' he'
              by_cases hjt : j = tpos
              · subst hjt
                rw [getD_set_self _ _ htlt] at he'
                cases Option.some.inj he'
                refine ⟨hstWF1, ?_⟩
                show 1 ≤ st.count + 1
                omega
              · rw [getD_set_ne _ _ _ (fun hc => hjt hc.symm)] at he'
                refine hWF.2.2.1 j ?_ e' he'
                rw [List.length_set] at hj
                exact hj
          · -- inner slot already holds key2: overwrite in place
            have hstWF1 := (LPT.write_preserves_WF st k2 v spos hstWF
              hips).2 v' hsS
            simp only [opF, hpr, hg, hie, Bool.false_eq_true, if_false, hsS,
              Option.isNone_some, Option.elim, decide_eq_true_eq,
              eq_self_iff_true, if_true]
            refine set_tail_WF n ihreh _ tpos ?_
            refine ⟨?_, ?_, ?_, hWF.2.2.2.1, hi1, hi2⟩
            · show 1 ≤ (s.table.set tpos _).length
              rw [List.length_set]
              exact hWF.1
            · show s.element_count + 0 = occCount _
              rw [occCount_set_some_of_some _ _ _ _ hg, Nat.add_zero]
              exact hWF.2.1
            · intro j hj e' he'
              by_cases hjt : j = tpos
              · subst hjt
                rw [getD_set_self _ _ htlt] at he'
                cases Option.some.inj he'
                refine ⟨hstWF1, ?_⟩
                show 1 ≤ st.count
                omega
              · rw [getD_set_ne _ _ _ (fun hc => hjt hc.symm)] at he'
                refine hWF.2.2.1 j ?_ e' he'
                rw [List.length_set] at hj
                exact hj
    · -- _rehash at fuel n + 1
      intro s hWF
      by_cases hsat : s.sizes.length ≤ s.size_index + 1
      · have hred : opF (n + 1) (OpIn.rehash s) =
            (.ok (), { s with size_index := s.size_index + 1 }) := by
          simp only [opF]
          rw [if_pos hsat]
        rw [hred]
        exact hWF
      · have hred : opF (n + 1) (OpIn.rehash s) =
            (s.table.filterMap id).foldl (entryStepO n)
              (.ok (), { s with size_index := s.size_index + 1, table := List.replicate (s.sizes.getD (s.size_index + 1) 0) none, element_count := 0 }) := by
          simp only [opF]
          rw [if_neg hsat]
          rfl
        rw [hred]
        refine entryFoldO_preserves n ihset _ _ ?_
        refine ⟨?_, ?_, ?_, hWF.2.2.2.1, hWF.2.2.2.2.1, hWF.2.2.2.2.2⟩
        · show 1 ≤ (List.replicate (s.sizes.getD (s.size_index + 1) 0)
            (none : Option (String × LPT V))).length
          rw [List.length_replicate]
          exact hWF.2.2.2.1 _ (getD_mem_of_lt s.sizes (s.size_index + 1) 0
            (by omega))
        · show (0 : Nat) = occCount (List.replicate
            (s.sizes.getD (s.size_index + 1) 0)
            (none : Option (String × LPT V)))
          rw [occCount_replicate]
        · intro j _ e' he'
          have hcontra : (none : Option (String × LPT V)) = some e' := by
            rw [← getD_replicate (s.sizes.getD (s.size_index + 1) 0) j]
            exact he'
          exact Option.noConfusion hcontra

/-- Deleting the sole remaining pair under `key1` (stored in one outer slot
only) succeeds and drops `key1` from the unscoped `keys()` listing. -/
theorem delitem_last_removes_key (s : DKT V) (k1 k2 : String)
    (tpos spos : Nat) (sk : String) (st : LPT V)
    (hpr : (s.linear_probe k1 k2 false).1 = .ok (tpos, spos))
    (hslot : s.table.getD tpos none = some (sk, st))
    (hone : st.count = 1)
    (huniq : ∀ j e, s.table.getD j none = some e → e.1 = k1 → j = tpos) :
    (delitem s k1 k2).1 = .ok () ∧
    ∀ l, keysF (delitem s k1 k2).2 none = .ok (some l) → k1 ∉ l := by
  obtain ⟨st', hg', hip⟩ := probeO_lookup_ok s k1 k2 s.table_size
    (s.hash1 k1) tpos spos hpr
  have hpair := Option.some.inj (hslot.symm.trans hg')
  have hst : st = st' := congrArg Prod.snd hpair
  have hone' : st'.count = 1 := by rw [← hst]; exact hone
  have hz : st'.count - 1 = 0 := by omega
  have hred : delitem s k1 k2 = (.ok (), { s with
      table := s.table.set tpos none,
      element_count := s.element_count - 1 }) := by
    simp only [delitem, hpr, hg']
    rw [if_pos hz]
  constructor
  · rw [hred]
  · intro l hl
    have hkf : keysF (delitem s k1 k2).2 none = .ok (some
        (((s.table.set tpos none).filterMap id).map Prod.fst)) := by
      rw [hred]
      rfl
    have hl2 : ((s.table.set tpos none).filterMap id).map Prod.fst = l :=
      Option.some.inj (Except.ok.inj (hkf.symm.trans hl))
    rw [← hl2]
    intro hmem
    obtain ⟨e, hein, he1⟩ := List.mem_map.mp hmem
    obtain ⟨j, hjlt, hgj⟩ := getD_of_mem_filterMap _ e hein
    by_cases hjt : j = tpos
    · rw [hjt, getD_set_self _ _ (lt_of_getD_some _ _ _ hslot)] at hgj
      exact Option.noConfusion hgj
    · rw [getD_set_ne _ _ _ (fun hc => hjt hc.symm)] at hgj
      exact hjt (huniq j e hgj he1)

end DKT

/-- C6: on states satisfying the outer invariant — `element_count` equal to
the number of occupied outer slots, every occupied slot owning a well-formed
inner table with at least one entry, positive ladders — `__setitem__`,
`__delitem__` and `_rehash` all preserve the invariant; and deleting the sole
remaining pair under `key1` (which occupies exactly one outer slot) removes
`key1` from the unscoped `keys()` listing in the same call, so no
empty-but-present inner table becomes observable. -/
theorem c6_operations_preserve_invariant {V : Type} (s : DKT V)
    (k1 k2 : String) (v : V) (hWF : DKT.WF s) :
    DKT.WF (DKT.setitem s k1 k2 v).2 ∧
    DKT.WF (DKT.delitem s k1 k2).2 ∧
    DKT.WF (DKT.rehash s).2 ∧
    (∀ (tpos spos : Nat) (sk : String) (st : LPT V),
      (s.linear_probe k1 k2 false).1 = .ok (tpos, spos) →
      s.table.getD tpos none = some (sk, st) →
      st.count = 1 →
      (∀ j e, s.table.getD j none = some e → e.1 = k1 → j = tpos) →
      (DKT.delitem s k1 k2).1 = .ok () ∧
      ∀ l, DKT.keysF (DKT.delitem s k1 k2).2 none = .ok (some l) →
        k1 ∉ l) := by
  refine ⟨(DKT.opFO_preserves_WF (2 * s.sizes.length + 8)).1 s k1 k2 v hWF,
    DKT.delitem_preserves_WF s k1 k2 hWF,
    (DKT.opFO_preserves_WF (2 * s.sizes.length + 8)).2 s hWF, ?_⟩
  intro tpos spos sk st h1 h2 h3 h4
  exact DKT.delitem_last_removes_key s k1 k2 tpos spos sk st h1 h2 h3 h4

/-- C6, witness: the invariant holds of the two-entry table built by two
inserts on the `[5, 13]` ladder, and is intact after a further insert, a
delete, and a bare `_rehash`. -/
theorem c6_invariant_witness :
    DKT.WF c2_s2 ∧
    DKT.WF (DKT.setitem c2_s2 "b" "y" (7 : Nat)).2 ∧
    DKT.WF (DKT.delitem c2_s2 "a" "x").2 ∧
    DKT.WF (DKT.rehash c2_s2).2 := by
  have h := c6_operations_preserve_invariant c2_s2 "a" "x" (7 : Nat)
    (by decide)
  have h2 := c6_operations_preserve_invariant c2_s2 "b" "y" (7 : Nat)
    (by decide)
  exact ⟨by decide, h2.1, h.2.1, h.2.2.1⟩

end DKTable
